import Mathlib

/-!
# hypersync-go: the `logs_in_range` demo

A shallow embedding of `cmd/logs_in_range/main.go` and of the streaming
contract it consumes.

* `main` is sequential Go code.  It is embedded as a function from a
  `Scenario` (what the library calls return and which `select` cases fire) to
  the list of `Action`s the program performs, in program order.  The three
  accumulators of the consumer loop are the record `Totals`; `exec` gives the
  effect of one action on them, so the state at every program point is the
  result of executing an initial segment of the action list.
* `*big.Int` values are natural numbers; `BlockNumber.Uint64()` keeps the low
  64 bits.  `totalTxns` is a Go `int`; it is a natural number here, the counts
  of the demo being far below the word size.
* `map[uint64]struct{}` is the list of its keys, without repetition.
* Durations and the constant `network_id` field of the log entries are left
  out of `LogEntry`; wall-clock time is not modelled, the expiry of the
  150-second timer is the event `Event.timeout`.
-/

namespace LogsInRange

/-! ## Data model -/

/-- An error value (Go `error`); `Option Err` is a possibly-nil error. -/
abbrev Err := String

/-- A log record as far as the demo looks at it: `tx.BlockNumber`. -/
structure LogRecord where
  blockNumber : Nat
  deriving DecidableEq, Repr

/-- One response read from `bStream.Channel()`: `NextBlock` and `GetLogs()`. -/
structure BatchResponse where
  nextBlock : Nat
  logs : List LogRecord
  deriving DecidableEq, Repr

/-- The case of the `select` (lines 91-135) that fires in one iteration. -/
inductive Event where
  | data (response : BatchResponse)
  | err (cErr : Err)
  | done
  | timeout
  deriving DecidableEq, Repr

/-- Whether the event is a receive on `bStream.Channel()`. -/
def Event.isData : Event → Bool
  | .data _ => true
  | _ => false

/-- The logs carried by an event (none for the three terminal events). -/
def Event.logs : Event → List LogRecord
  | .data r => r.logs
  | _ => []

inductive Level where
  | info
  | error
  deriving DecidableEq, Repr

/-- One call of `logger.L().Info` / `.Error`: the message, the argument of
`zap.Error` (`none` for a nil error) and the numeric fields. -/
structure LogEntry where
  level : Level
  msg : String
  error : Option Err
  fields : List (String × Nat)
  deriving DecidableEq, Repr

/-- The observable actions of `main`, one per executed statement. -/
inductive Action where
  /-- Entering the `select` of line 91. -/
  | wait
  | log (entry : LogEntry)
  /-- Line 109: `latestBatchReceived = response.NextBlock`. -/
  | setLatest (nextBlock : Nat)
  /-- Line 111: `totalTxns += len(response.GetLogs())`. -/
  | addTxns (n : Nat)
  /-- Line 113: `totalBlocks[key] = struct{}{}`. -/
  | putBlock (key : Nat)
  /-- Line 116: `bStream.Ack()`. -/
  | ack
  /-- A `return` statement of `main`. -/
  | ret
  /-- The deferred `cancel()` of line 29. -/
  | cancel
  deriving DecidableEq, Repr

/-- The accumulators declared at lines 87-89. -/
structure Totals where
  latestBatchReceived : Nat
  totalBlocks : List Nat
  totalTxns : Nat
  deriving DecidableEq, Repr

/-- Lines 87-89: `big.NewInt(0)`, an empty map, `0`. -/
def Totals.init : Totals := ⟨0, [], 0⟩

/-- `(*big.Int).Uint64()`: the low 64 bits of the value. -/
def uint64 (n : Nat) : Nat := n % 2 ^ 64

/-- `m[k] = struct{}{}` on a `map[uint64]struct{}` given by its keys. -/
def mapSet (m : List Nat) (k : Nat) : List Nat :=
  if k ∈ m then m else m ++ [k]

def startBlock : Nat := 20000000
def endBlock : Nat := 20001000
def batchSize : Nat := 50

/-! ## The consumer loop (lines 90-136) -/

/-- Lines 102-108. -/
def logResponse (r : BatchResponse) : LogEntry :=
  ⟨.info, "new stream logs reponse", none,
    [("start_block", startBlock), ("current_sync_block", r.nextBlock), ("end_block", endBlock)]⟩

/-- Lines 93-99. -/
def logStreamErr (cErr : Err) : LogEntry :=
  ⟨.error, "failure to execute hyper client stream in range", some cErr,
    [("start_block", startBlock), ("end_block", endBlock)]⟩

/-- Lines 119-124. -/
def logCompleted (st : Totals) : LogEntry :=
  ⟨.info, "Stream request successfully completed", none,
    [("total_blocks", st.totalBlocks.length), ("total_logs", st.totalTxns)]⟩

/-- Lines 127-133. -/
def logTimeout (st : Totals) : LogEntry :=
  ⟨.info, "expected ranges to receive at least one logs range in 15s", none,
    [("start_block", startBlock), ("latest_batch_block_received", st.latestBatchReceived),
     ("end_block", endBlock)]⟩

/-- Lines 109-114: the statements that fold one response into the totals. -/
def accumulate (r : BatchResponse) : List Action :=
  .setLatest r.nextBlock :: .addTxns r.logs.length ::
    r.logs.map (fun tx => Action.putBlock (uint64 tx.blockNumber))

/-- Lines 101-116: the data case of the `select`. -/
def dataBranch (r : BatchResponse) : List Action :=
  .log (logResponse r) :: accumulate r ++ [.ack]

/-- The statements of the selected case, before its `return` if it has one. -/
def branch (st : Totals) : Event → List Action
  | .data r => dataBranch r
  | .err cErr => [.log (logStreamErr cErr)]
  | .done => [.log (logCompleted st)]
  | .timeout => [.log (logTimeout st)]

/-- The effect of one action on the accumulators. -/
def exec (st : Totals) : Action → Totals
  | .setLatest n => { st with latestBatchReceived := n }
  | .addTxns n => { st with totalTxns := st.totalTxns + n }
  | .putBlock k => { st with totalBlocks := mapSet st.totalBlocks k }
  | _ => st

/-- Executing a list of actions in order. -/
def run (st : Totals) (acts : List Action) : Totals :=
  acts.foldl exec st

/-- What one iteration of the `for` loop does on an event. -/
structure StepResult where
  actions : List Action
  totals : Totals
  /-- `true` when the iteration ends at the closing brace of the `select` and
  the loop iterates again, `false` when the case ends in `return`. -/
  continues : Bool
  deriving DecidableEq, Repr

/-- One iteration of the loop of lines 90-136 on the event that fires. -/
def step (st : Totals) (ev : Event) : StepResult :=
  ⟨branch st ev, run st (branch st ev), ev.isData⟩

inductive Status where
  /-- Blocked in the `select`: every event so far was data. -/
  | waiting
  /-- The loop has executed a `return`. -/
  | returned
  deriving DecidableEq, Repr

/-- The outcome of running the loop against a sequence of events. -/
structure LoopResult where
  totals : Totals
  trace : List Action
  consumed : List Event
  status : Status
  deriving DecidableEq, Repr

/-- The loop of lines 90-136 run on the events delivered to its `select`. -/
def consumerLoop (st : Totals) : List Event → LoopResult
  | [] => ⟨st, [.wait], [], .waiting⟩
  | ev :: rest =>
    let s := step st ev
    if s.continues then
      let r := consumerLoop s.totals rest
      ⟨r.totals, .wait :: s.actions ++ r.trace, ev :: r.consumed, r.status⟩
    else
      ⟨s.totals, .wait :: s.actions ++ [.ret], [ev], .returned⟩

/-! ## `main` -/

/-- What the environment of `main` does in one run. -/
structure Scenario where
  /-- The error returned by `hypersyncgo.NewHyper` (line 32), `none` for nil. -/
  newHyperErr : Option Err
  /-- The second result of `hsClient.GetClient` (line 41). -/
  found : Bool
  /-- The error returned by `client.StreamLogsInRange` (line 75). -/
  bsErr : Option Err
  /-- The cases of the `select` that fire, in order. -/
  events : List Event
  deriving DecidableEq, Repr

/-- Lines 34-37. -/
def logNewHyperFailed (err : Option Err) : LogEntry :=
  ⟨.error, "failed to create hyper client", err, []⟩

/-- Lines 43-47. -/
def logNoClient (err : Option Err) : LogEntry :=
  ⟨.error, "failed to get client", err, []⟩

/-- Lines 55-61. -/
def logStarted (err : Option Err) : LogEntry :=
  ⟨.info, "New Logs in range stream request started", err,
    [("start_block", startBlock), ("end_block", endBlock)]⟩

/-- Lines 77-83: the argument of `zap.Error` is the variable `err` of line 32. -/
def logStreamFailed (err : Option Err) : LogEntry :=
  ⟨.error, "failure to execute hyper client stream in range", err,
    [("start_block", startBlock), ("end_block", endBlock)]⟩

/-- The body of `main` from line 32 on: the actions performed and whether
`main` has returned. -/
def mainBody (sc : Scenario) : List Action × Status :=
  let err := sc.newHyperErr
  match err with
  | some _ => ([.log (logNewHyperFailed err), .ret], .returned)
  | none =>
    if !sc.found then ([.log (logNoClient err), .ret], .returned)
    else
      match sc.bsErr with
      | some _ => ([.log (logStarted err), .log (logStreamFailed err), .ret], .returned)
      | none =>
        let r := consumerLoop Totals.init sc.events
        (.log (logStarted err) :: r.trace, r.status)

/-- The function `main`: its body, then the deferred `cancel()` of line 29 once
the body has returned. -/
def main (sc : Scenario) : List Action :=
  match mainBody sc with
  | (acts, .returned) => acts ++ [.cancel]
  | (acts, .waiting) => acts

/-! ## Observations on traces -/

/-- The last log entry of a trace. -/
def lastLog (t : List Action) : Option LogEntry :=
  t.foldl (fun acc a => match a with
    | .log entry => some entry
    | _ => acc) none

/-- The value of a named numeric field of a log entry. -/
def LogEntry.field (entry : LogEntry) (name : String) : Option Nat :=
  entry.fields.lookup name

/-- The value under which a named field was reported in the last log entry. -/
def reported (t : List Action) (name : String) : Option Nat :=
  (lastLog t).bind (fun entry => entry.field name)

/-- All log records of a sequence of events, in order of arrival. -/
def recordsOf (evs : List Event) : List LogRecord :=
  evs.flatMap Event.logs

/-- The `NextBlock` values of the data events of a sequence, in order. -/
def nextBlocksOf : List Event → List Nat
  | [] => []
  | .data r :: rest => r.nextBlock :: nextBlocksOf rest
  | _ :: rest => nextBlocksOf rest

/-! ## The Stream Controller (`StreamLogsInRange`)

The library code behind `client.StreamLogsInRange` is not among the sources;
the controller and the batch fetcher are modelled from sections 3, 4.1, 4.2 and
5 of the specification. -/

/-- Modelled from the spec: the Batch Fetcher of section 4.2, which is not among
the sources.  `fetch(ctx, subrange, selections) -> (BatchResponse, error)`: a
fetcher maps the sub-range `[lo, hi)` to a response or to a `BackendError`. -/
abbrev Fetcher := Nat → Nat → Except Err BatchResponse

/-- Modelled from the spec: what the Stream Controller of section 4.1 (not among
the sources) does towards the backend and the consumer: a call of the fetcher on
a sub-range, a response published on the data channel, an error published on
the error channel, the completion signal. -/
inductive Signal where
  | fetch (lo hi : Nat)
  | data (r : BatchResponse)
  | error (e : Err)
  | done
  deriving DecidableEq, Repr

/-- Modelled from the spec: where the controller loop of section 4.1 (not among
the sources) stands: at the loop head, inside a fetch, blocked until the
published response is acknowledged, or terminated (`completed | failed`, or
stopped silently by cancellation). -/
inductive Phase where
  | running
  | fetching (lo hi : Nat)
  | awaitingAck (r : BatchResponse)
  | completed
  | failed
  | cancelled
  deriving DecidableEq, Repr

/-- Modelled from the spec: the controller-owned part of the StreamHandle of
section 3 (not among the sources): the cursor and the termination state. -/
structure Controller where
  cursor : Nat
  phase : Phase
  deriving DecidableEq, Repr

/-- Modelled from the spec: `startStream` of section 4.1 (not among the
sources): "Fails immediately (no background work started) if
`range.start > range.end`, if `options.batchSize == 0`"; otherwise the cursor
starts at `range.start`. -/
def startStream (s e b : Nat) : Except Err Controller :=
  if s > e then .error "InvalidRangeError"
  else if b = 0 then .error "InvalidOptionsError"
  else .ok ⟨s, .running⟩

/-- The outcome of one action of the controller. -/
structure Advance where
  ctl : Controller
  signal : Option Signal
  /-- Whether the action took an acknowledgment from the gate. -/
  tookAck : Bool
  deriving DecidableEq, Repr

/-- Modelled from the spec: one action of the controller loop of section 4.1
(not among the sources): "while cursor < range.end, compute next sub-range
`[cursor, min(cursor+batchSize, range.end))`, invoke Batch Fetcher, and on
success publish the response on the data channel, then block until
acknowledgment (or context cancellation) before advancing cursor to
`response.nextBlock` and repeating.  On fetch failure, publish the error once,
stop the loop, and do not publish completion."  `ackReady` says whether the
acknowledgment gate is open; the result is `none` when the controller is
blocked or has terminated. -/
def Controller.advance (fetch : Fetcher) (e b : Nat) (c : Controller) (ackReady : Bool) :
    Option Advance :=
  match c.phase with
  | .running =>
    if c.cursor < e then
      some ⟨⟨c.cursor, .fetching c.cursor (min (c.cursor + b) e)⟩,
        some (.fetch c.cursor (min (c.cursor + b) e)), false⟩
    else some ⟨⟨c.cursor, .completed⟩, some .done, false⟩
  | .fetching lo hi =>
    match fetch lo hi with
    | .ok r => some ⟨⟨c.cursor, .awaitingAck r⟩, some (.data r), false⟩
    | .error err => some ⟨⟨c.cursor, .failed⟩, some (.error err), false⟩
  | .awaitingAck r =>
    if ackReady then some ⟨⟨r.nextBlock, .running⟩, none, true⟩ else none
  | _ => none

/-- Modelled from the spec: the controller of section 4.1 (not among the
sources) run for at most `fuel` actions when every published response is
acknowledged at once; the result is the sequence of its signals. -/
def Controller.drive (fetch : Fetcher) (e b : Nat) : Nat → Controller → List Signal
  | 0, _ => []
  | fuel + 1, c =>
    match c.advance fetch e b true with
    | none => []
    | some a => a.signal.toList ++ Controller.drive fetch e b fuel a.ctl

/-- The sub-ranges on which the fetcher was called, in order. -/
def fetchesOf : List Signal → List (Nat × Nat)
  | [] => []
  | .fetch lo hi :: rest => (lo, hi) :: fetchesOf rest
  | _ :: rest => fetchesOf rest

/-- The responses published on the data channel, in order. -/
def deliveredOf : List Signal → List BatchResponse
  | [] => []
  | .data r :: rest => r :: deliveredOf rest
  | _ :: rest => deliveredOf rest

/-- How many of the sub-ranges contain block `x`. -/
def coverage (fs : List (Nat × Nat)) (x : Nat) : Nat :=
  (fs.filter (fun p => decide (p.1 ≤ x ∧ x < p.2))).length

/-- A fetcher that always succeeds and whose response reaches only 50 blocks
past the start of the sub-range. -/
def shortFetch : Fetcher := fun lo _ => .ok ⟨lo + 50, []⟩

/-- A fetcher that always succeeds, finds no logs and reaches the upper bound
of the sub-range. -/
def emptyFetch : Fetcher := fun _ hi => .ok ⟨hi, []⟩

/-! ## Controller and consumer together -/

/-- One entry of the joint history of a stream: a signal of the controller or a
statement executed by the consumer. -/
inductive Obs where
  | ctl (s : Signal)
  | consumer (a : Action)
  deriving DecidableEq, Repr

/-- The case of the `select` the scheduler lets fire. -/
inductive Choice where
  | data
  | err
  | done
  | timeout
  deriving DecidableEq, Repr

/-- Who moves next. -/
inductive Move where
  | producer
  | consumer (c : Choice)
  deriving DecidableEq, Repr

/-- Modelled from the spec: the live stream of sections 3 and 5 (the library's
stream type is not among the sources) together with the consumer of `main`: the
controller, the three channels, the acknowledgment gate (the number of `Ack()`
calls the controller has not taken yet), and on the side of `main` the
accumulators, the statements of the current iteration still to execute, and
whether a `return` case was selected.  `hist` is the joint history. -/
structure System where
  ctl : Controller
  dataCh : List BatchResponse
  errCh : List Err
  doneCh : Bool
  gate : Nat
  totals : Totals
  pending : List Action
  stopped : Bool
  hist : List Obs
  deriving DecidableEq, Repr

/-- The stream right after `StreamLogsInRange` has returned it. -/
def System.init (c : Controller) : System :=
  ⟨c, [], [], false, 0, Totals.init, [], false, []⟩

/-- Modelled from the spec: one action of the controller inside the system;
its signal goes to the channel it belongs to. -/
def System.produce (fetch : Fetcher) (e b : Nat) (sys : System) : System :=
  match sys.ctl.advance fetch e b (decide (0 < sys.gate)) with
  | none => sys
  | some a =>
    let sys1 := { sys with ctl := a.ctl, gate := if a.tookAck then sys.gate - 1 else sys.gate }
    match a.signal with
    | none => sys1
    | some (.fetch lo hi) => { sys1 with hist := sys.hist ++ [.ctl (.fetch lo hi)] }
    | some (.data r) =>
      { sys1 with dataCh := sys.dataCh ++ [r], hist := sys.hist ++ [.ctl (.data r)] }
    | some (.error err) =>
      { sys1 with errCh := sys.errCh ++ [err], hist := sys.hist ++ [.ctl (.error err)] }
    | some .done => { sys1 with doneCh := true, hist := sys.hist ++ [.ctl .done] }

/-- The event the `select` of line 91 receives for a choice of case, if that
case can fire; the received value leaves its channel. -/
def System.select (sys : System) : Choice → Option (Event × System)
  | .data =>
    match sys.dataCh with
    | [] => none
    | r :: rest => some (.data r, { sys with dataCh := rest })
  | .err =>
    match sys.errCh with
    | [] => none
    | x :: rest => some (.err x, { sys with errCh := rest })
  | .done => if sys.doneCh then some (.done, sys) else none
  | .timeout => some (.timeout, sys)

/-- One statement of `main` inside the system: `Ack()` opens the gate, the
deferred `cancel()` stops the controller, the other statements act on the
accumulators as in `exec`. -/
def System.execute (sys : System) (a : Action) (rest : List Action) : System :=
  { sys with
    totals := exec sys.totals a
    pending := rest
    gate := if a = .ack then sys.gate + 1 else sys.gate
    ctl := if a = .cancel then { sys.ctl with phase := .cancelled } else sys.ctl
    hist := sys.hist ++ [.consumer a] }

/-- One move of `main`: the next statement of the current iteration, or, at
the `select`, the iteration `step` of the case that fires, followed by the
`return` of that case and the deferred `cancel()` when it has one. -/
def System.consume (sys : System) (c : Choice) : System :=
  match sys.pending with
  | a :: rest => sys.execute a rest
  | [] =>
    if sys.stopped then sys
    else
      match sys.select c with
      | none => sys
      | some (ev, sys1) =>
        { sys1 with
          pending := if (step sys1.totals ev).continues then (step sys1.totals ev).actions
            else (step sys1.totals ev).actions ++ [.ret, .cancel]
          stopped := !(step sys1.totals ev).continues }

/-- One move of the system. -/
def System.move (fetch : Fetcher) (e b : Nat) (sys : System) : Move → System
  | .producer => sys.produce fetch e b
  | .consumer c => sys.consume c

/-- A run of the system under a schedule. -/
def System.runMoves (fetch : Fetcher) (e b : Nat) (sys : System) (ms : List Move) : System :=
  ms.foldl (System.move fetch e b) sys

/-- Whether an entry of the history is a call of the fetcher. -/
def Obs.isFetch : Obs → Bool
  | .ctl (.fetch _ _) => true
  | _ => false

/-- Whether an entry of the history is a response published on the data channel. -/
def Obs.isData : Obs → Bool
  | .ctl (.data _) => true
  | _ => false

/-- Whether an entry of the history is a call of `Ack()`. -/
def Obs.isAck : Obs → Bool
  | .consumer .ack => true
  | _ => false

/-- The sub-ranges `F` are the tiles `[c, min(c+b, e))`, `[min(c+b, e), ...)`,
... from the cursor `c` up to `e`. -/
def Tiles (e b : Nat) : Nat → List (Nat × Nat) → Prop
  | c, [] => c = e
  | c, p :: rest => c < e ∧ p = (c, min (c + b) e) ∧ Tiles e b (min (c + b) e) rest

/-- The number of calls of the fetcher so far. -/
def System.fetches (sys : System) : Nat := sys.hist.countP Obs.isFetch

/-- The number of responses published on the data channel so far. -/
def System.delivered (sys : System) : Nat := sys.hist.countP Obs.isData

/-- The number of `Ack()` calls so far. -/
def System.acks (sys : System) : Nat := sys.hist.countP Obs.isAck

/-- What the phase of the controller says about the counts: `nF` fetches, `nD`
published responses, `chan` responses waiting in the data channel, `ackP`
`Ack()` calls still ahead in the current iteration of `main`, `gate` calls not
yet taken by the controller. -/
def PhaseOk (ph : Phase) (nF nD chan ackP gate : Nat) (stopped : Bool) : Prop :=
  match ph with
  | .running => nF = nD ∧ chan = 0 ∧ ackP = 0 ∧ gate = 0
  | .fetching _ _ => nF = nD + 1 ∧ chan = 0 ∧ ackP = 0 ∧ gate = 0
  | .awaitingAck _ => nF = nD ∧ chan + ackP + gate = 1
  | .completed => nF = nD ∧ chan = 0 ∧ ackP = 0 ∧ gate = 0
  | .failed => nF = nD + 1 ∧ chan = 0 ∧ ackP = 0 ∧ gate = 0
  | .cancelled => stopped = true ∧ nD ≤ nF ∧ nF + chan ≤ nD + 1

/-- The invariant of the system: a pending `cancel()` means a `return` case was
selected, after which no `Ack()` is ahead; every published response has been
acknowledged, waits in the channel, or is being processed; and the counts fit
the phase of the controller. -/
def Inv (sys : System) : Prop :=
  (Action.cancel ∈ sys.pending → sys.stopped = true)
  ∧ (sys.stopped = true → sys.pending.count Action.ack = 0)
  ∧ sys.delivered = sys.acks + sys.dataCh.length + sys.pending.count Action.ack
  ∧ PhaseOk sys.ctl.phase sys.fetches sys.delivered sys.dataCh.length
      (sys.pending.count Action.ack) sys.gate sys.stopped

/-- Whether an action is a map assignment of line 113. -/
def Action.isPut : Action → Bool
  | .putBlock _ => true
  | _ => false

/-- The map key of a record: `tx.BlockNumber.Uint64()`. -/
def LogRecord.key (tx : LogRecord) : Nat := uint64 tx.blockNumber

/-! ## Basic facts about the loop -/

theorem run_append (st : Totals) (a b : List Action) :
    run st (a ++ b) = run (run st a) b := by
  simp [run, List.foldl_append]

theorem step_data (st : Totals) (r : BatchResponse) :
    step st (.data r) = ⟨dataBranch r, run st (dataBranch r), true⟩ := rfl

theorem consumerLoop_data (st : Totals) (r : BatchResponse) (rest : List Event) :
    consumerLoop st (.data r :: rest) =
      ⟨(consumerLoop (run st (dataBranch r)) rest).totals,
       .wait :: dataBranch r ++ (consumerLoop (run st (dataBranch r)) rest).trace,
       .data r :: (consumerLoop (run st (dataBranch r)) rest).consumed,
       (consumerLoop (run st (dataBranch r)) rest).status⟩ := rfl

theorem run_branch_of_not_data (st : Totals) (ev : Event) (h : ev.isData = false) :
    run st (branch st ev) = st := by
  cases ev <;> simp_all [Event.isData, branch, run, exec]

theorem consumerLoop_stop (st : Totals) (ev : Event) (rest : List Event)
    (h : ev.isData = false) :
    consumerLoop st (ev :: rest) =
      ⟨st, .wait :: branch st ev ++ [.ret], [ev], .returned⟩ := by
  simp [consumerLoop, step, h, run_branch_of_not_data]

theorem ack_not_mem_accumulate (r : BatchResponse) : Action.ack ∉ accumulate r := by
  simp [accumulate]

theorem ack_not_mem_branch (st : Totals) (ev : Event) (h : ev.isData = false) :
    Action.ack ∉ branch st ev := by
  cases ev <;> simp_all [Event.isData, branch]

theorem trace_head (st : Totals) (evs : List Event) :
    ∃ t, (consumerLoop st evs).trace = Action.wait :: t := by
  cases evs with
  | nil => exact ⟨[], rfl⟩
  | cons ev rest =>
    by_cases h : (step st ev).continues <;> simp [consumerLoop, h]

/-- Where an element first occurs in a list decides how the list splits at
any occurrence of it. -/
theorem split_at_first {α : Type} (a : α) :
    ∀ (xs ys pre post : List α), a ∉ xs → pre ++ a :: post = xs ++ a :: ys →
      (pre = xs ∧ post = ys) ∨ ∃ p, pre = xs ++ a :: p ∧ ys = p ++ a :: post := by
  intro xs
  induction xs with
  | nil =>
    intro ys pre post _ heq
    cases pre with
    | nil => left; simpa using heq
    | cons b pre2 =>
      right
      simp only [List.cons_append, List.nil_append, List.cons.injEq] at heq
      exact ⟨pre2, by simp [heq.1], heq.2.symm⟩
  | cons x xs ih =>
    intro ys pre post hx heq
    have hxa : a ≠ x := fun h => hx (by simp [h])
    have hxs : a ∉ xs := fun h => hx (by simp [h])
    cases pre with
    | nil =>
      simp only [List.cons_append, List.nil_append, List.cons.injEq] at heq
      exact absurd heq.1 hxa
    | cons b pre2 =>
      simp only [List.cons_append, List.cons.injEq] at heq
      rcases ih ys pre2 post hxs heq.2 with ⟨h1, h2⟩ | ⟨p, h1, h2⟩
      · left; exact ⟨by simp [heq.1, h1], h2⟩
      · right; exact ⟨p, by simp [heq.1, h1], h2⟩

theorem ack_not_mem_head (r : BatchResponse) :
    Action.ack ∉ Action.wait :: Action.log (logResponse r) :: accumulate r := by
  simp [accumulate]

theorem trace_data (st : Totals) (r : BatchResponse) (rest : List Event) :
    (consumerLoop st (.data r :: rest)).trace =
      (Action.wait :: Action.log (logResponse r) :: accumulate r) ++
        Action.ack :: (consumerLoop (run st (dataBranch r)) rest).trace := by
  simp [consumerLoop_data, dataBranch]

theorem count_ack_trace (st : Totals) (evs : List Event) :
    (consumerLoop st evs).trace.count Action.ack =
      (consumerLoop st evs).consumed.countP Event.isData := by
  induction evs generalizing st with
  | nil => simp [consumerLoop]
  | cons ev rest ih =>
    cases hd : ev.isData with
    | true =>
      cases ev with
      | data r =>
        rw [trace_data, List.count_append,
          List.count_eq_zero_of_not_mem (ack_not_mem_head r), List.count_cons_self, ih]
        simp [consumerLoop_data, Event.isData]
      | _ => simp [Event.isData] at hd
    | false =>
      rw [consumerLoop_stop st ev rest hd]
      have h := ack_not_mem_branch st ev hd
      simp [List.count_cons, List.count_append, List.count_eq_zero_of_not_mem h, hd]

theorem ack_context (st : Totals) (evs : List Event) (pre post : List Action)
    (h : (consumerLoop st evs).trace = pre ++ Action.ack :: post) :
    (∃ t, post = Action.wait :: t) ∧
      ∃ p r, Event.data r ∈ (consumerLoop st evs).consumed ∧
        pre = p ++ Action.wait :: Action.log (logResponse r) :: accumulate r := by
  induction evs generalizing st pre with
  | nil =>
    have hm : Action.ack ∈ (consumerLoop st []).trace := by rw [h]; simp
    simp [consumerLoop] at hm
  | cons ev rest ih =>
    cases hd : ev.isData with
    | true =>
      cases ev with
      | data r =>
        rw [trace_data] at h
        rcases split_at_first Action.ack _ _ pre post (ack_not_mem_head r) h.symm with
          ⟨h1, h2⟩ | ⟨q, h1, h2⟩
        · refine ⟨?_, [], r, by simp [consumerLoop_data], by simp [h1]⟩
          rw [h2]; exact trace_head _ _
        · obtain ⟨ht, p, r2, hr2, hq⟩ := ih _ q h2
          refine ⟨ht, (Action.wait :: Action.log (logResponse r) :: accumulate r) ++
            Action.ack :: p, r2, ?_, ?_⟩
          · simp [consumerLoop_data, hr2]
          · simp [h1, hq]
      | _ => simp [Event.isData] at hd
    | false =>
      have hm : Action.ack ∈ (consumerLoop st (ev :: rest)).trace := by rw [h]; simp
      rw [consumerLoop_stop st ev rest hd] at hm
      have hb := ack_not_mem_branch st ev hd
      simp [hb] at hm

/-- C1: whatever events reach the loop, the trace holds as many `Ack()` calls as
data events were consumed; every `Ack()` comes right after the statements that
fold a consumed item into the totals and right before the next wait; a data
event, also one with no logs, yields exactly one `Ack()`, as the last statement
of its iteration, and an error, completion or timeout event yields none. -/
theorem ack_once_per_data_item (st : Totals) (evs : List Event) :
    (consumerLoop st evs).trace.count Action.ack =
        (consumerLoop st evs).consumed.countP Event.isData
    ∧ (∀ pre post, (consumerLoop st evs).trace = pre ++ Action.ack :: post →
        (∃ t, post = Action.wait :: t) ∧
        ∃ p r, Event.data r ∈ (consumerLoop st evs).consumed ∧
          pre = p ++ Action.wait :: Action.log (logResponse r) :: accumulate r)
    ∧ (∀ (s : Totals) (r : BatchResponse),
        (step s (.data r)).actions.count Action.ack = 1 ∧
        (step s (.data r)).actions.getLast? = some Action.ack ∧
        (step s (.data r)).totals = run s (accumulate r))
    ∧ (∀ (s : Totals) (n : Nat), (step s (.data ⟨n, []⟩)).actions.count Action.ack = 1)
    ∧ (∀ (s : Totals) (ev : Event), ev.isData = false →
        Action.ack ∉ (step s ev).actions) := by
  have hone : ∀ (s : Totals) (r : BatchResponse),
      (step s (.data r)).actions.count Action.ack = 1 := by
    intro s r
    have h := ack_not_mem_accumulate r
    simp [step, branch, dataBranch, List.count_cons, List.count_append,
      List.count_eq_zero_of_not_mem h]
  refine ⟨count_ack_trace st evs, ack_context st evs, ?_, fun s n => hone s _, ?_⟩
  · intro s r
    refine ⟨hone s r, ?_, ?_⟩
    · have h : (step s (.data r)).actions =
          (Action.log (logResponse r) :: accumulate r) ++ [Action.ack] := by
        simp [step, branch, dataBranch]
      rw [h, List.getLast?_append]
      simp
    · simp [step, branch, dataBranch, run, List.foldl_append, exec]
  · intro s ev h
    exact ack_not_mem_branch s ev h

theorem consumerLoop_all_data (st : Totals) (ds : List Event)
    (h : ∀ d ∈ ds, d.isData = true) :
    (consumerLoop st ds).consumed = ds ∧ (consumerLoop st ds).status = .waiting := by
  induction ds generalizing st with
  | nil => simp [consumerLoop]
  | cons d rest ih =>
    cases d with
    | data r =>
      have hr := ih (run st (dataBranch r)) (fun x hx => h x (by simp [hx]))
      simp [consumerLoop_data, hr]
    | _ => simpa [Event.isData] using h _ (List.mem_cons_self _ _)

theorem consumerLoop_split (st : Totals) (ds : List Event) (ev : Event) (more : List Event)
    (h : ∀ d ∈ ds, d.isData = true) (hev : ev.isData = false) :
    consumerLoop st (ds ++ ev :: more) =
      ⟨(consumerLoop st ds).totals,
       (consumerLoop st ds).trace ++ branch (consumerLoop st ds).totals ev ++ [.ret],
       ds ++ [ev], .returned⟩ := by
  induction ds generalizing st with
  | nil =>
    rw [List.nil_append, consumerLoop_stop st ev more hev]
    simp [consumerLoop]
  | cons d rest ih =>
    cases d with
    | data r =>
      have hr := ih (run st (dataBranch r)) (fun x hx => h x (by simp [hx]))
      rw [List.cons_append, consumerLoop_data, hr]
      simp [consumerLoop_data]
    | _ => simpa [Event.isData] using h _ (List.mem_cons_self _ _)

theorem takeWhile_all_data (evs : List Event) :
    ∀ d ∈ evs.takeWhile Event.isData, d.isData = true := by
  intro d hd
  exact (List.mem_takeWhile_imp hd)

theorem totals_takeWhile (st : Totals) (evs : List Event) :
    (consumerLoop st evs).totals = (consumerLoop st (evs.takeWhile Event.isData)).totals := by
  induction evs generalizing st with
  | nil => rfl
  | cons ev rest ih =>
    cases hd : ev.isData with
    | true =>
      cases ev with
      | data r =>
        rw [List.takeWhile_cons_of_pos hd]
        simp only [consumerLoop_data]
        exact ih _
      | _ => simp [Event.isData] at hd
    | false =>
      rw [consumerLoop_stop st ev rest hd]
      have : (ev :: rest).takeWhile Event.isData = [] := by simp [List.takeWhile_cons, hd]
      rw [this]
      rfl

theorem consumed_take (st : Totals) (evs : List Event) :
    (consumerLoop st evs).consumed =
      evs.take ((evs.takeWhile Event.isData).length + 1) := by
  induction evs generalizing st with
  | nil => rfl
  | cons ev rest ih =>
    cases hd : ev.isData with
    | true =>
      cases ev with
      | data r =>
        rw [List.takeWhile_cons_of_pos hd]
        simp only [consumerLoop_data, List.length_cons, List.take_succ_cons]
        rw [ih]
      | _ => simp [Event.isData] at hd
    | false =>
      rw [consumerLoop_stop st ev rest hd]
      simp [List.takeWhile_cons, hd]

theorem status_waiting_iff (st : Totals) (evs : List Event) :
    (consumerLoop st evs).status = .waiting ↔ ∀ ev ∈ evs, ev.isData = true := by
  induction evs generalizing st with
  | nil => simp [consumerLoop]
  | cons ev rest ih =>
    cases hd : ev.isData with
    | true =>
      cases ev with
      | data r => simp [consumerLoop_data, ih, Event.isData]
      | _ => simp [Event.isData] at hd
    | false =>
      rw [consumerLoop_stop st ev rest hd]
      simp [hd]

theorem countP_take_takeWhile (evs : List Event) :
    (evs.take ((evs.takeWhile Event.isData).length + 1)).countP Event.isData =
      (evs.takeWhile Event.isData).length := by
  induction evs with
  | nil => rfl
  | cons ev rest ih =>
    cases hd : ev.isData with
    | true =>
      rw [List.takeWhile_cons_of_pos hd]
      simp [List.countP_cons, hd, ih]
    | false =>
      simp [List.takeWhile_cons, hd, List.countP_cons]

/-- C2: the events the loop consumes are the events up to and including the
first one that is not data, and no later one; that event leaves the three
accumulators as the data events before it left them and adds no `Ack()`; an
iteration on an error, completion or timeout event changes no accumulator,
calls no `Ack()` and does not iterate again, an iteration on a data event does;
the loop is still waiting exactly when every event so far was data. -/
theorem stops_at_first_terminal_event (st : Totals) (evs : List Event) :
    (consumerLoop st evs).consumed = evs.take ((evs.takeWhile Event.isData).length + 1)
    ∧ (consumerLoop st evs).totals = (consumerLoop st (evs.takeWhile Event.isData)).totals
    ∧ (consumerLoop st evs).trace.count Action.ack = (evs.takeWhile Event.isData).length
    ∧ ((consumerLoop st evs).status = Status.waiting ↔ ∀ ev ∈ evs, ev.isData = true)
    ∧ (∀ (ds : List Event) (ev : Event) (more : List Event),
        (∀ d ∈ ds, d.isData = true) → ev.isData = false → evs = ds ++ ev :: more →
          (consumerLoop st evs).consumed = ds ++ [ev] ∧
          (consumerLoop st evs).totals = (consumerLoop st ds).totals ∧
          (consumerLoop st evs).status = Status.returned ∧
          (consumerLoop st evs).trace.count Action.ack =
            (consumerLoop st ds).trace.count Action.ack)
    ∧ (∀ (s : Totals) (ev : Event), ev.isData = false →
        (step s ev).totals = s ∧ Action.ack ∉ (step s ev).actions ∧
          (step s ev).continues = false)
    ∧ (∀ (s : Totals) (r : BatchResponse), (step s (.data r)).continues = true) := by
  refine ⟨consumed_take st evs, totals_takeWhile st evs, ?_, status_waiting_iff st evs,
    ?_, ?_, fun _ _ => rfl⟩
  · rw [count_ack_trace, consumed_take, countP_take_takeWhile]
  · intro ds ev more hds hev heq
    subst heq
    rw [consumerLoop_split st ds ev more hds hev]
    have hb := ack_not_mem_branch (consumerLoop st ds).totals ev hev
    simp [List.count_append, List.count_eq_zero_of_not_mem hb, List.count_cons]
  · intro s ev hev
    exact ⟨run_branch_of_not_data s ev hev, ack_not_mem_branch s ev hev, hev⟩

/-! ## The accumulators after a run -/

/-- The map keys written for a list of records, in order (line 113). -/
theorem run_putBlocks (st : Totals) (ks : List Nat) :
    run st (ks.map Action.putBlock) =
      { st with totalBlocks := ks.foldl mapSet st.totalBlocks } := by
  induction ks generalizing st with
  | nil => rfl
  | cons k rest ih =>
    simp only [List.map_cons, run, List.foldl_cons] at ih ⊢
    rw [ih]
    rfl

theorem run_dataBranch (st : Totals) (r : BatchResponse) :
    run st (dataBranch r) =
      ⟨r.nextBlock, (r.logs.map (fun tx => uint64 tx.blockNumber)).foldl mapSet st.totalBlocks,
        st.totalTxns + r.logs.length⟩ := by
  have h : dataBranch r = [Action.log (logResponse r), .setLatest r.nextBlock,
      .addTxns r.logs.length] ++
        (r.logs.map (fun tx => uint64 tx.blockNumber)).map Action.putBlock ++ [.ack] := by
    simp [dataBranch, accumulate]
  rw [h, run_append, run_append, run_putBlocks]
  rfl

theorem run_trace (st : Totals) (evs : List Event) :
    run st (consumerLoop st evs).trace = (consumerLoop st evs).totals := by
  induction evs generalizing st with
  | nil => rfl
  | cons ev rest ih =>
    cases hd : ev.isData with
    | true =>
      cases ev with
      | data r =>
        have h : (consumerLoop st (.data r :: rest)).trace =
            (Action.wait :: dataBranch r) ++
              (consumerLoop (run st (dataBranch r)) rest).trace := by
          simp [consumerLoop_data]
        rw [h, run_append]
        have hw : run st (Action.wait :: dataBranch r) = run st (dataBranch r) := rfl
        rw [hw, ih]
        rfl
      | _ => simp [Event.isData] at hd
    | false =>
      rw [consumerLoop_stop st ev rest hd]
      have h : Action.wait :: branch st ev ++ [Action.ret] =
          [Action.wait] ++ branch st ev ++ [Action.ret] := by simp
      simp only []
      rw [h, run_append, run_append]
      have hw : run st [Action.wait] = st := rfl
      rw [hw, run_branch_of_not_data st ev hd]
      rfl

/-- The keys under which the records of a sequence of events are stored. -/
theorem totals_of_items (st : Totals) (items : List BatchResponse) :
    (consumerLoop st (items.map Event.data)).totals =
      ⟨((items.map (fun r => r.nextBlock)).getLast?).getD st.latestBatchReceived,
       ((items.flatMap (fun r => r.logs)).map (fun tx => uint64 tx.blockNumber)).foldl
          mapSet st.totalBlocks,
       st.totalTxns + (items.map (fun r => r.logs.length)).sum⟩ := by
  induction items generalizing st with
  | nil => rfl
  | cons r rest ih =>
    rw [List.map_cons, consumerLoop_data]
    simp only []
    rw [ih, run_dataBranch]
    simp only [List.map_cons, List.flatMap_cons, List.map_append, List.foldl_append,
      List.sum_cons, Nat.add_assoc]
    congr 1
    cases rest with
    | nil => rfl
    | cons r2 rest2 =>
      have hne : r2.nextBlock :: List.map (fun r => r.nextBlock) rest2 ≠ [] := by simp
      simp only [List.map_cons, List.getLast?_cons_cons]
      rw [List.getLast?_eq_getLast _ hne]
      rfl

theorem items_all_data (items : List BatchResponse) :
    ∀ d ∈ items.map Event.data, d.isData = true := by
  intro d hd
  obtain ⟨r, _, rfl⟩ := List.mem_map.mp hd
  rfl

theorem lastLog_append_log (t : List Action) (entry : LogEntry) :
    lastLog (t ++ [Action.log entry, Action.ret]) = some entry := by
  simp [lastLog, List.foldl_append]

/-- The trace of a run that ends on a terminal event. -/
theorem trace_of_items_then (st : Totals) (items : List BatchResponse) (ev : Event)
    (more : List Event) (hev : ev.isData = false) :
    (consumerLoop st (items.map Event.data ++ ev :: more)).trace =
      (consumerLoop st (items.map Event.data)).trace ++
        branch (consumerLoop st (items.map Event.data)).totals ev ++ [.ret] := by
  rw [consumerLoop_split st _ ev more (items_all_data items) hev]

/-! ## Maps as key lists -/

theorem mem_mapSet (m : List Nat) (k x : Nat) : x ∈ mapSet m k ↔ x ∈ m ∨ x = k := by
  unfold mapSet
  split
  · constructor
    · intro h; exact Or.inl h
    · rintro (h | h)
      · exact h
      · subst h; assumption
  · simp

theorem nodup_mapSet (m : List Nat) (k : Nat) (h : m.Nodup) : (mapSet m k).Nodup := by
  unfold mapSet
  split
  · exact h
  · rename_i hk
    exact List.Nodup.append h (List.nodup_singleton k) (by simpa using hk)

theorem mem_foldl_mapSet (ks m : List Nat) (x : Nat) :
    x ∈ ks.foldl mapSet m ↔ x ∈ m ∨ x ∈ ks := by
  induction ks generalizing m with
  | nil => simp
  | cons k rest ih =>
    rw [List.foldl_cons, ih, mem_mapSet]
    simp only [List.mem_cons]
    tauto

theorem nodup_foldl_mapSet (ks m : List Nat) (h : m.Nodup) : (ks.foldl mapSet m).Nodup := by
  induction ks generalizing m with
  | nil => exact h
  | cons k rest ih => exact ih _ (nodup_mapSet m k h)

/-- Starting from the empty map, the number of keys is the number of distinct
keys written. -/
theorem length_foldl_mapSet (ks : List Nat) :
    (ks.foldl mapSet []).length = ks.toFinset.card := by
  rw [← List.toFinset_card_of_nodup (nodup_foldl_mapSet ks [] List.nodup_nil)]
  congr 1
  ext x
  simp [mem_foldl_mapSet]

theorem uint64_of_lt (n : Nat) (h : n < 2 ^ 64) : uint64 n = n :=
  Nat.mod_eq_of_lt h

theorem reported_completed (t : List Action) (st : Totals) :
    reported (t ++ [Action.log (logCompleted st), Action.ret]) "total_logs" =
        some st.totalTxns ∧
    reported (t ++ [Action.log (logCompleted st), Action.ret]) "total_blocks" =
        some st.totalBlocks.length := by
  simp [reported, lastLog_append_log, LogEntry.field, logCompleted, List.lookup]

theorem reported_timeout (t : List Action) (st : Totals) :
    reported (t ++ [Action.log (logTimeout st), Action.ret]) "latest_batch_block_received" =
        some st.latestBatchReceived := by
  simp [reported, lastLog_append_log, LogEntry.field, logTimeout, List.lookup]

theorem trace_then_done (st : Totals) (items : List BatchResponse) (more : List Event) :
    (consumerLoop st (items.map Event.data ++ Event.done :: more)).trace =
      (consumerLoop st (items.map Event.data)).trace ++
        [Action.log (logCompleted (consumerLoop st (items.map Event.data)).totals),
         Action.ret] := by
  rw [trace_of_items_then st items Event.done more rfl]
  simp [branch]

theorem trace_then_timeout (st : Totals) (items : List BatchResponse) (more : List Event) :
    (consumerLoop st (items.map Event.data ++ Event.timeout :: more)).trace =
      (consumerLoop st (items.map Event.data)).trace ++
        [Action.log (logTimeout (consumerLoop st (items.map Event.data)).totals),
         Action.ret] := by
  rw [trace_of_items_then st items Event.timeout more rfl]
  simp [branch]

/-- C6: starting from 0, `totalTxns` after consuming a sequence of data items is
the sum of the lengths of their logs (from any other value, that value plus the
sum); it is the number reported as "total_logs" when completion follows; an item
with empty logs leaves it unchanged; and in the scenario of an empty batch with
`nextBlock = 200` followed by a batch of five records with `nextBlock = 300` and
then completion, the number reported is 5. -/
theorem totalTxns_is_sum_of_log_counts (items : List BatchResponse) (more : List Event) :
    Totals.init.totalTxns = 0
    ∧ (consumerLoop Totals.init (items.map Event.data)).totals.totalTxns =
        (items.map (fun r => r.logs.length)).sum
    ∧ (∀ st : Totals, (consumerLoop st (items.map Event.data)).totals.totalTxns =
        st.totalTxns + (items.map (fun r => r.logs.length)).sum)
    ∧ reported (consumerLoop Totals.init (items.map Event.data ++ Event.done :: more)).trace
        "total_logs" = some (items.map (fun r => r.logs.length)).sum
    ∧ (∀ (st : Totals) (n : Nat),
        (step st (.data ⟨n, []⟩)).totals.totalTxns = st.totalTxns)
    ∧ (∀ logs : List LogRecord, logs.length = 5 →
        reported (consumerLoop Totals.init
          [.data ⟨200, []⟩, .data ⟨300, logs⟩, .done]).trace "total_logs" = some 5) := by
  refine ⟨rfl, ?_, ?_, ?_, ?_, ?_⟩
  · rw [totals_of_items]; simp [Totals.init]
  · intro st; rw [totals_of_items]
  · rw [trace_then_done, (reported_completed _ _).1, totals_of_items]
    simp [Totals.init]
  · intro st n
    simp [step, branch, run_dataBranch]
  · intro logs hlen
    have h := trace_then_done Totals.init [⟨200, []⟩, ⟨300, logs⟩] []
    simp only [List.map_cons, List.map_nil, List.cons_append, List.nil_append] at h
    rw [h, (reported_completed _ _).1]
    have ht := totals_of_items Totals.init [⟨200, []⟩, ⟨300, logs⟩]
    simp only [List.map_cons, List.map_nil] at ht
    rw [ht]
    simp [Totals.init, hlen]

/-- C7: when every block number is below 2^64, the number of keys of
`totalBlocks` after consuming a sequence of data items is the number of distinct
block numbers among all their log records, and it is the number reported as
"total_blocks" when completion follows. -/
theorem totalBlocks_counts_distinct_block_numbers (items : List BatchResponse)
    (more : List Event)
    (hlt : ∀ r ∈ items, ∀ tx ∈ r.logs, tx.blockNumber < 2 ^ 64) :
    (consumerLoop Totals.init (items.map Event.data)).totals.totalBlocks.length =
        ((items.flatMap (fun r => r.logs)).map (fun tx => tx.blockNumber)).toFinset.card
    ∧ reported (consumerLoop Totals.init (items.map Event.data ++ Event.done :: more)).trace
        "total_blocks" =
        some ((items.flatMap (fun r => r.logs)).map (fun tx => tx.blockNumber)).toFinset.card := by
  have hkeys : (items.flatMap (fun r => r.logs)).map (fun tx => uint64 tx.blockNumber) =
      (items.flatMap (fun r => r.logs)).map (fun tx => tx.blockNumber) := by
    apply List.map_congr_left
    intro tx htx
    obtain ⟨r, hr, hin⟩ := List.mem_flatMap.mp htx
    exact uint64_of_lt _ (hlt r hr tx hin)
  have hlen : (consumerLoop Totals.init (items.map Event.data)).totals.totalBlocks.length =
      ((items.flatMap (fun r => r.logs)).map (fun tx => tx.blockNumber)).toFinset.card := by
    rw [totals_of_items]
    simp only [Totals.init]
    rw [hkeys, length_foldl_mapSet]
  refine ⟨hlen, ?_⟩
  rw [trace_then_done, (reported_completed _ _).2, hlen]

/-- C7, at two batches in which block 7 occurs twice in one batch and block 9
once in each. -/
theorem totalBlocks_counts_distinct_block_numbers_witness :
    (∀ r ∈ [(⟨200, [⟨7⟩, ⟨7⟩, ⟨9⟩]⟩ : BatchResponse), ⟨300, [⟨9⟩, ⟨11⟩]⟩],
        ∀ tx ∈ r.logs, tx.blockNumber < 2 ^ 64)
    ∧ (consumerLoop Totals.init
        ([(⟨200, [⟨7⟩, ⟨7⟩, ⟨9⟩]⟩ : BatchResponse), ⟨300, [⟨9⟩, ⟨11⟩]⟩].map
          Event.data)).totals.totalBlocks.length = 3 :=
  ⟨by decide,
   (totalBlocks_counts_distinct_block_numbers
      [⟨200, [⟨7⟩, ⟨7⟩, ⟨9⟩]⟩, ⟨300, [⟨9⟩, ⟨11⟩]⟩] [] (by decide)).1.trans (by decide)⟩

theorem le_foldr_max (l : List Nat) (x : Nat) (h : x ∈ l) : x ≤ l.foldr max 0 := by
  induction l with
  | nil => simp at h
  | cons a rest ih =>
    rcases List.mem_cons.mp h with rfl | h2
    · exact Nat.le_max_left _ _
    · exact Nat.le_trans (ih h2) (Nat.le_max_right _ _)

/-- The last element of a non-decreasing list is its maximum. -/
theorem getLast_eq_foldr_max (l : List Nat) (h : l.Chain' (· ≤ ·)) :
    l.getLast?.getD 0 = l.foldr max 0 := by
  rw [List.chain'_iff_pairwise] at h
  induction l with
  | nil => rfl
  | cons a rest ih =>
    cases rest with
    | nil => simp
    | cons b r2 =>
      have hp := List.pairwise_cons.mp h
      have hrec := ih hp.2
      rw [List.getLast?_cons_cons, hrec]
      have hab : a ≤ (b :: r2).foldr max 0 :=
        Nat.le_trans (hp.1 b (List.mem_cons_self _ _))
          (le_foldr_max (b :: r2) b (List.mem_cons_self _ _))
      show (b :: r2).foldr max 0 = max a ((b :: r2).foldr max 0)
      exact (Nat.max_eq_right hab).symm

theorem getLast_le (l : List Nat) (e : Nat) (h : ∀ x ∈ l, x ≤ e) :
    l.getLast?.getD 0 ≤ e := by
  cases hl : l.getLast? with
  | none => simp
  | some x => exact h x (List.mem_of_mem_getLast? (by simp [hl]))

/-- C8: `latestBatchReceived` is 0 before any data item is consumed; after a
sequence of data items it is the `nextBlock` of the last one; it is the number
reported as "latest_batch_block_received" when the timeout fires next; and when
the `nextBlock` values are non-decreasing and at most the end `e` of the range,
it is their maximum and at most `e`. -/
theorem latestBatchReceived_is_last_nextBlock (items : List BatchResponse)
    (more : List Event) (e : Nat) :
    (consumerLoop Totals.init []).totals.latestBatchReceived = 0
    ∧ (consumerLoop Totals.init (items.map Event.data)).totals.latestBatchReceived =
        ((items.map (fun r => r.nextBlock)).getLast?).getD 0
    ∧ (∀ r : BatchResponse,
        (consumerLoop Totals.init ((items ++ [r]).map Event.data)).totals.latestBatchReceived =
          r.nextBlock)
    ∧ reported (consumerLoop Totals.init (items.map Event.data ++ Event.timeout :: more)).trace
        "latest_batch_block_received" =
        some (((items.map (fun r => r.nextBlock)).getLast?).getD 0)
    ∧ ((items.map (fun r => r.nextBlock)).Chain' (· ≤ ·) →
        (∀ r ∈ items, r.nextBlock ≤ e) →
        (consumerLoop Totals.init (items.map Event.data)).totals.latestBatchReceived =
            (items.map (fun r => r.nextBlock)).foldr max 0
        ∧ (consumerLoop Totals.init (items.map Event.data)).totals.latestBatchReceived ≤ e) := by
  have hlast : (consumerLoop Totals.init (items.map Event.data)).totals.latestBatchReceived =
      ((items.map (fun r => r.nextBlock)).getLast?).getD 0 := by
    rw [totals_of_items]; rfl
  refine ⟨rfl, hlast, ?_, ?_, ?_⟩
  · intro r
    rw [totals_of_items]
    simp [List.getLast?_append]
  · rw [trace_then_timeout, reported_timeout, hlast]
  · intro hmono hle
    rw [hlast]
    refine ⟨getLast_eq_foldr_max _ hmono, getLast_le _ e ?_⟩
    intro x hx
    obtain ⟨r, hr, rfl⟩ := List.mem_map.mp hx
    exact hle r hr

/-- C8, at the three responses of the range [100, 350) with batch size 100. -/
theorem latestBatchReceived_is_last_nextBlock_witness :
    ([(⟨200, []⟩ : BatchResponse), ⟨300, [⟨250⟩]⟩, ⟨350, []⟩].map
        (fun r => r.nextBlock)).Chain' (· ≤ ·)
    ∧ (∀ r ∈ [(⟨200, []⟩ : BatchResponse), ⟨300, [⟨250⟩]⟩, ⟨350, []⟩], r.nextBlock ≤ 350)
    ∧ (consumerLoop Totals.init ([(⟨200, []⟩ : BatchResponse), ⟨300, [⟨250⟩]⟩, ⟨350, []⟩].map
        Event.data)).totals.latestBatchReceived = 350 :=
  ⟨by simp, by decide,
   ((latestBatchReceived_is_last_nextBlock
      [⟨200, []⟩, ⟨300, [⟨250⟩]⟩, ⟨350, []⟩] [] 350).2.2.2.2 (by simp) (by decide)).1.trans
      (by decide)⟩

/-! ## Blocks recorded against logs counted -/

theorem length_mapSet_le (m : List Nat) (k : Nat) : (mapSet m k).length ≤ m.length + 1 := by
  unfold mapSet
  split <;> simp

theorem run_cons (st : Totals) (a : Action) (acts : List Action) :
    run st (a :: acts) = run (exec st a) acts := rfl

/-- Executing actions adds at most one key per map assignment and never lowers
the log count. -/
theorem run_bounds (acts : List Action) (st : Totals) :
    (run st acts).totalBlocks.length ≤ st.totalBlocks.length + acts.countP Action.isPut ∧
      st.totalTxns ≤ (run st acts).totalTxns := by
  induction acts generalizing st with
  | nil => simp [run]
  | cons a rest ih =>
    rw [run_cons]
    obtain ⟨h1, h2⟩ := ih (exec st a)
    cases a with
    | putBlock k =>
      have hk := length_mapSet_le st.totalBlocks k
      simp only [exec, List.countP_cons, Action.isPut] at h1 h2 ⊢
      constructor
      · simp only [if_true]; omega
      · exact h2
    | addTxns n =>
      simp only [exec, List.countP_cons, Action.isPut] at h1 h2 ⊢
      constructor
      · simpa using h1
      · omega
    | _ =>
      simp only [exec, List.countP_cons, Action.isPut] at h1 h2 ⊢
      exact ⟨by simpa using h1, h2⟩

theorem countP_isPut_puts (logs : List LogRecord) :
    (logs.map (fun tx => Action.putBlock (uint64 tx.blockNumber)) ++ [Action.ack]).countP
      Action.isPut = logs.length := by
  induction logs with
  | nil => rfl
  | cons tx rest ih =>
    simp only [List.map_cons, List.cons_append, List.countP_cons, Action.isPut, ih]
    simp

theorem dataBranch_split (r : BatchResponse) :
    dataBranch r = [Action.log (logResponse r), .setLatest r.nextBlock,
      .addTxns r.logs.length] ++
        (r.logs.map (fun tx => Action.putBlock (uint64 tx.blockNumber)) ++ [.ack]) := by
  simp [dataBranch, accumulate]

/-- At every point inside the data case the keys recorded are at most the logs
counted, if they were on entry. -/
theorem inv_dataBranch_take (st : Totals) (r : BatchResponse) (k : Nat)
    (h : st.totalBlocks.length ≤ st.totalTxns) :
    (run st ((dataBranch r).take k)).totalBlocks.length ≤
      (run st ((dataBranch r).take k)).totalTxns := by
  rw [dataBranch_split, List.take_append_eq_append_take, run_append]
  rcases k with _ | _ | _ | k
  · simpa [run] using h
  · simpa [run, exec] using h
  · simpa [run, exec] using h
  · have hb := run_bounds
      ((r.logs.map (fun tx => Action.putBlock (uint64 tx.blockNumber)) ++
        [Action.ack]).take k)
      (run st [Action.log (logResponse r), .setLatest r.nextBlock, .addTxns r.logs.length])
    have hc := List.Sublist.countP_le Action.isPut
      (List.take_sublist k
        (r.logs.map (fun tx => Action.putBlock (uint64 tx.blockNumber)) ++ [Action.ack]))
    rw [countP_isPut_puts] at hc
    have hs : run st [Action.log (logResponse r), .setLatest r.nextBlock,
        .addTxns r.logs.length] =
        ⟨r.nextBlock, st.totalBlocks, st.totalTxns + r.logs.length⟩ := rfl
    rw [hs] at hb
    have ht : List.take (k + 1 + 1 + 1) [Action.log (logResponse r),
        Action.setLatest r.nextBlock, Action.addTxns r.logs.length] =
        [Action.log (logResponse r), Action.setLatest r.nextBlock,
          Action.addTxns r.logs.length] := by simp
    have hk : k + 1 + 1 + 1 - [Action.log (logResponse r),
        Action.setLatest r.nextBlock, Action.addTxns r.logs.length].length = k := by
      simp
    rw [ht, hs, hk]
    dsimp only at hb
    omega

theorem inv_dataBranch (st : Totals) (r : BatchResponse)
    (h : st.totalBlocks.length ≤ st.totalTxns) :
    (run st (dataBranch r)).totalBlocks.length ≤ (run st (dataBranch r)).totalTxns := by
  have := inv_dataBranch_take st r (dataBranch r).length h
  simpa using this

/-- At every point of a run of the loop the keys recorded are at most the logs
counted, if they were at its start. -/
theorem inv_trace_take (evs : List Event) (st : Totals) (k : Nat)
    (h : st.totalBlocks.length ≤ st.totalTxns) :
    (run st ((consumerLoop st evs).trace.take k)).totalBlocks.length ≤
      (run st ((consumerLoop st evs).trace.take k)).totalTxns := by
  induction evs generalizing st k with
  | nil =>
    have hb := run_bounds ((consumerLoop st []).trace.take k) st
    have hc := List.Sublist.countP_le Action.isPut
      (List.take_sublist k (consumerLoop st []).trace)
    have hz : (consumerLoop st []).trace.countP Action.isPut = 0 := by
      simp [consumerLoop, Action.isPut]
    omega
  | cons ev rest ih =>
    cases hd : ev.isData with
    | true =>
      cases ev with
      | data r =>
        have ht : (consumerLoop st (.data r :: rest)).trace =
            (Action.wait :: dataBranch r) ++
              (consumerLoop (run st (dataBranch r)) rest).trace := by
          simp [consumerLoop_data]
        rw [ht, List.take_append_eq_append_take, run_append]
        by_cases hk : k ≤ (Action.wait :: dataBranch r).length
        · have h0 : k - (Action.wait :: dataBranch r).length = 0 := by omega
          rw [h0, List.take_zero]
          cases k with
          | zero => simpa [run] using h
          | succ j =>
            rw [List.take_succ_cons]
            exact inv_dataBranch_take st r j h
        · rw [List.take_of_length_le (by omega)]
          have hw : run st (Action.wait :: dataBranch r) = run st (dataBranch r) := rfl
          rw [hw]
          exact ih _ _ (inv_dataBranch st r h)
      | _ => simp [Event.isData] at hd
    | false =>
      have hb := run_bounds ((consumerLoop st (ev :: rest)).trace.take k) st
      have hc := List.Sublist.countP_le Action.isPut
        (List.take_sublist k (consumerLoop st (ev :: rest)).trace)
      have hz : (consumerLoop st (ev :: rest)).trace.countP Action.isPut = 0 := by
        rw [consumerLoop_stop st ev rest hd]
        cases ev <;> simp_all [Event.isData, branch, Action.isPut]
      omega

/-- The keys and the log count after a run, in terms of the records consumed. -/
theorem blocks_txns_of_consumed (evs : List Event) (st : Totals) :
    (consumerLoop st evs).totals.totalBlocks =
        ((recordsOf (consumerLoop st evs).consumed).map LogRecord.key).foldl
          mapSet st.totalBlocks ∧
    (consumerLoop st evs).totals.totalTxns =
        st.totalTxns + (recordsOf (consumerLoop st evs).consumed).length := by
  induction evs generalizing st with
  | nil => simp [consumerLoop, recordsOf]
  | cons ev rest ih =>
    cases hd : ev.isData with
    | true =>
      cases ev with
      | data r =>
        obtain ⟨h1, h2⟩ := ih (run st (dataBranch r))
        simp only [consumerLoop_data]
        rw [h1, h2, run_dataBranch]
        simp only [recordsOf, List.flatMap_cons, Event.logs, List.map_append, List.foldl_append,
          List.length_append]
        exact ⟨rfl, by omega⟩
      | _ => simp [Event.isData] at hd
    | false =>
      rw [consumerLoop_stop st ev rest hd]
      cases ev <;> simp_all [Event.isData, recordsOf, Event.logs]

theorem length_eq_iff_nodup (ks : List Nat) :
    (ks.foldl mapSet []).length = ks.length ↔ ks.Nodup := by
  rw [length_foldl_mapSet, List.card_toFinset]
  constructor
  · intro h
    rw [← List.dedup_eq_self]
    exact List.Sublist.eq_of_length (List.dedup_sublist ks) h
  · intro h
    rw [List.dedup_eq_self.mpr h]

/-- C10, as stated, fails inside an iteration.  The first batch of the range,
`nextBlock = 20000050`, holds two records, of blocks 20000001 and 20000002.
After the first four actions of the run (the wait, the log entry, line 109 and
line 111) the two logs are counted and no block is recorded yet: no two consumed
records share a block number, and the two counts differ. -/
theorem equality_fails_between_counting_and_recording :
    (consumerLoop Totals.init
        [.data ⟨20000050, [⟨20000001⟩, ⟨20000002⟩]⟩]).trace.take 4 =
      [.wait, .log (logResponse ⟨20000050, [⟨20000001⟩, ⟨20000002⟩]⟩),
       .setLatest 20000050, .addTxns 2]
    ∧ run Totals.init ((consumerLoop Totals.init
        [.data ⟨20000050, [⟨20000001⟩, ⟨20000002⟩]⟩]).trace.take 4) = ⟨20000050, [], 2⟩
    ∧ (∀ tx ∈ recordsOf (consumerLoop Totals.init
          [.data ⟨20000050, [⟨20000001⟩, ⟨20000002⟩]⟩]).consumed,
        startBlock ≤ tx.blockNumber ∧ tx.blockNumber < endBlock)
    ∧ ¬ ((run Totals.init ((consumerLoop Totals.init
            [.data ⟨20000050, [⟨20000001⟩, ⟨20000002⟩]⟩]).trace.take 4)).totalBlocks.length =
          (run Totals.init ((consumerLoop Totals.init
            [.data ⟨20000050, [⟨20000001⟩, ⟨20000002⟩]⟩]).trace.take 4)).totalTxns ↔
        ((recordsOf (consumerLoop Totals.init
            [.data ⟨20000050, [⟨20000001⟩, ⟨20000002⟩]⟩]).consumed).map
              (fun tx => tx.blockNumber)).Nodup) := by
  refine ⟨by decide, by decide, by decide, ?_⟩
  intro h
  have hn : ((recordsOf (consumerLoop Totals.init
      [.data ⟨20000050, [⟨20000001⟩, ⟨20000002⟩]⟩]).consumed).map
        (fun tx => tx.blockNumber)).Nodup := by
    decide
  have hlen := h.mpr hn
  revert hlen
  decide

/-- C10, as amended: both counts are 0 before the first data item; at every
point of every run of the loop, between any two statements, the number of keys
of `totalBlocks` is at most `totalTxns`; at the loop head, when every statement
of the iterations so far has run, the two are equal exactly when no two consumed
records have the same key `BlockNumber.Uint64()`, which for the records of the
requested range, and for all block numbers below 2^64, is: no two consumed
records share a block number. -/
theorem blocks_at_most_logs_at_every_point (evs : List Event) :
    Totals.init.totalBlocks.length = 0 ∧ Totals.init.totalTxns = 0
    ∧ (∀ k : Nat,
        (run Totals.init ((consumerLoop Totals.init evs).trace.take k)).totalBlocks.length ≤
          (run Totals.init ((consumerLoop Totals.init evs).trace.take k)).totalTxns)
    ∧ (consumerLoop Totals.init evs).totals.totalBlocks.length ≤
        (consumerLoop Totals.init evs).totals.totalTxns
    ∧ ((consumerLoop Totals.init evs).totals.totalBlocks.length =
          (consumerLoop Totals.init evs).totals.totalTxns ↔
        ((recordsOf (consumerLoop Totals.init evs).consumed).map LogRecord.key).Nodup)
    ∧ ((∀ tx ∈ recordsOf (consumerLoop Totals.init evs).consumed, tx.blockNumber < 2 ^ 64) →
        ((consumerLoop Totals.init evs).totals.totalBlocks.length =
            (consumerLoop Totals.init evs).totals.totalTxns ↔
          ((recordsOf (consumerLoop Totals.init evs).consumed).map
            (fun tx => tx.blockNumber)).Nodup))
    ∧ ((∀ tx ∈ recordsOf (consumerLoop Totals.init evs).consumed,
          startBlock ≤ tx.blockNumber ∧ tx.blockNumber < endBlock) →
        ((consumerLoop Totals.init evs).totals.totalBlocks.length =
            (consumerLoop Totals.init evs).totals.totalTxns ↔
          ((recordsOf (consumerLoop Totals.init evs).consumed).map
            (fun tx => tx.blockNumber)).Nodup)) := by
  have hinit : Totals.init.totalBlocks.length ≤ Totals.init.totalTxns := by
    simp [Totals.init]
  have hiff : (consumerLoop Totals.init evs).totals.totalBlocks.length =
        (consumerLoop Totals.init evs).totals.totalTxns ↔
      ((recordsOf (consumerLoop Totals.init evs).consumed).map LogRecord.key).Nodup := by
    obtain ⟨h1, h2⟩ := blocks_txns_of_consumed evs Totals.init
    rw [h1, h2]
    have := length_eq_iff_nodup
      ((recordsOf (consumerLoop Totals.init evs).consumed).map LogRecord.key)
    simpa [Totals.init] using this
  have hbelow : (∀ tx ∈ recordsOf (consumerLoop Totals.init evs).consumed,
        tx.blockNumber < 2 ^ 64) →
      ((consumerLoop Totals.init evs).totals.totalBlocks.length =
          (consumerLoop Totals.init evs).totals.totalTxns ↔
        ((recordsOf (consumerLoop Totals.init evs).consumed).map
          (fun tx => tx.blockNumber)).Nodup) := by
    intro hlt
    have hkeys : (recordsOf (consumerLoop Totals.init evs).consumed).map LogRecord.key =
        (recordsOf (consumerLoop Totals.init evs).consumed).map (fun tx => tx.blockNumber) :=
      List.map_congr_left (fun tx htx => uint64_of_lt _ (hlt tx htx))
    rw [hiff, hkeys]
  refine ⟨rfl, rfl, fun k => inv_trace_take evs Totals.init k hinit, ?_, hiff, hbelow, ?_⟩
  · have h := inv_trace_take evs Totals.init (consumerLoop Totals.init evs).trace.length hinit
    rw [List.take_length, run_trace] at h
    exact h
  · intro hrange
    apply hbelow
    intro tx htx
    have hend : endBlock < 2 ^ 64 := by decide
    exact Nat.lt_trans (hrange tx htx).2 hend

/-- C10 as amended, at three batches of the requested range followed by
completion, in which block 20000007 occurs twice in the first batch: the
records lie in the range, and the two counts differ while two records share a
block number. -/
theorem blocks_at_most_logs_at_every_point_witness :
    (∀ tx ∈ recordsOf (consumerLoop Totals.init
        [.data ⟨20000050, [⟨20000007⟩, ⟨20000007⟩, ⟨20000009⟩]⟩, .data ⟨20000100, []⟩,
         .data ⟨20000150, [⟨20000120⟩]⟩, .done]).consumed,
      startBlock ≤ tx.blockNumber ∧ tx.blockNumber < endBlock)
    ∧ ¬ ((consumerLoop Totals.init
        [.data ⟨20000050, [⟨20000007⟩, ⟨20000007⟩, ⟨20000009⟩]⟩, .data ⟨20000100, []⟩,
         .data ⟨20000150, [⟨20000120⟩]⟩, .done]).totals.totalBlocks.length =
      (consumerLoop Totals.init
        [.data ⟨20000050, [⟨20000007⟩, ⟨20000007⟩, ⟨20000009⟩]⟩, .data ⟨20000100, []⟩,
         .data ⟨20000150, [⟨20000120⟩]⟩, .done]).totals.totalTxns) :=
  ⟨by decide,
   fun heq => absurd
     (((blocks_at_most_logs_at_every_point
        [.data ⟨20000050, [⟨20000007⟩, ⟨20000007⟩, ⟨20000009⟩]⟩, .data ⟨20000100, []⟩,
         .data ⟨20000150, [⟨20000120⟩]⟩, .done]).2.2.2.2.2.2
          (by decide)).mp heq)
     (by decide)⟩

/-! ## `main` as a whole -/

theorem main_of_loop (evs : List Event) :
    main ⟨none, true, none, evs⟩ =
      match (consumerLoop Totals.init evs).status with
      | .returned => Action.log (logStarted none) :: (consumerLoop Totals.init evs).trace ++
          [Action.cancel]
      | .waiting => Action.log (logStarted none) :: (consumerLoop Totals.init evs).trace := by
  simp only [main, mainBody]
  cases (consumerLoop Totals.init evs).status <;> simp

theorem cancel_not_mem_trace (st : Totals) (evs : List Event) :
    Action.cancel ∉ (consumerLoop st evs).trace := by
  induction evs generalizing st with
  | nil => simp [consumerLoop]
  | cons ev rest ih =>
    cases hd : ev.isData with
    | true =>
      cases ev with
      | data r =>
        have h := ih (run st (dataBranch r))
        have hb : Action.cancel ∉ dataBranch r := by simp [dataBranch, accumulate]
        simp [consumerLoop_data, h, hb]
      | _ => simp [Event.isData] at hd
    | false =>
      rw [consumerLoop_stop st ev rest hd]
      cases ev <;> simp_all [Event.isData, branch]

/-- C3, as stated, fails when the first `select` already times out: `main`
logs, returns, and the deferred `cancel()` of line 29 runs, whereas a run that
is still waiting has not canceled the context. -/
theorem timeout_return_runs_deferred_cancel :
    ¬ (Action.cancel ∉ main ⟨none, true, none, [Event.timeout]⟩)
    ∧ main ⟨none, true, none, [Event.timeout]⟩ =
        [.log (logStarted none), .wait, .log (logTimeout Totals.init), .ret, .cancel]
    ∧ Action.cancel ∉ main ⟨none, true, none, []⟩ := by
  refine ⟨?_, ?_, ?_⟩ <;> decide

/-- C3, as amended: the timeout case itself only logs, changing no accumulator
and calling neither `Ack()` nor `cancel()`, and then returns from `main`; the
return runs the deferred `cancel()` of line 29, so that after any data items the
run ends with the timeout log entry, the return and exactly one `cancel()`;
while the loop is still waiting, no `cancel()` has happened. -/
theorem timeout_only_logs_then_deferred_cancel (items : List BatchResponse)
    (more : List Event) :
    (∀ st : Totals, (step st Event.timeout).actions = [Action.log (logTimeout st)] ∧
        (step st Event.timeout).totals = st ∧ (step st Event.timeout).continues = false)
    ∧ main ⟨none, true, none, items.map Event.data ++ Event.timeout :: more⟩ =
        Action.log (logStarted none) ::
          (consumerLoop Totals.init (items.map Event.data)).trace ++
          [Action.log (logTimeout (consumerLoop Totals.init (items.map Event.data)).totals),
           Action.ret, Action.cancel]
    ∧ (main ⟨none, true, none, items.map Event.data ++ Event.timeout :: more⟩).count
        Action.cancel = 1
    ∧ Action.cancel ∉ main ⟨none, true, none, items.map Event.data⟩ := by
  have hmain : main ⟨none, true, none, items.map Event.data ++ Event.timeout :: more⟩ =
      Action.log (logStarted none) ::
        (consumerLoop Totals.init (items.map Event.data)).trace ++
        [Action.log (logTimeout (consumerLoop Totals.init (items.map Event.data)).totals),
         Action.ret, Action.cancel] := by
    rw [main_of_loop, consumerLoop_split Totals.init _ Event.timeout more
      (items_all_data items) rfl]
    simp [branch]
  refine ⟨fun st => ⟨rfl, rfl, rfl⟩, hmain, ?_, ?_⟩
  · rw [hmain]
    have h := cancel_not_mem_trace Totals.init (items.map Event.data)
    simp [List.count_cons, List.count_append, List.count_eq_zero_of_not_mem h]
  · rw [main_of_loop, (consumerLoop_all_data Totals.init _ (items_all_data items)).2]
    have h := cancel_not_mem_trace Totals.init (items.map Event.data)
    simp [h]

/-- C9: when `StreamLogsInRange` returns the error `e`, `main` logs the start
entry and the failure entry and returns, without entering the loop (no wait, no
`Ack()`); the failure entry is built from the variable `err` of line 32, which
is nil there, so it carries no error and not `e`. -/
theorem stream_start_error_is_not_the_logged_error (e : Err) (evs : List Event) :
    main ⟨none, true, some e, evs⟩ =
        [.log (logStarted none),
         .log ⟨.error, "failure to execute hyper client stream in range", none,
           [("start_block", startBlock), ("end_block", endBlock)]⟩,
         .ret, .cancel]
    ∧ Action.wait ∉ main ⟨none, true, some e, evs⟩
    ∧ Action.ack ∉ main ⟨none, true, some e, evs⟩
    ∧ (∀ entry : LogEntry, Action.log entry ∈ main ⟨none, true, some e, evs⟩ →
        entry.error ≠ some e) := by
  have h : main ⟨none, true, some e, evs⟩ =
      [.log (logStarted none),
       .log ⟨.error, "failure to execute hyper client stream in range", none,
         [("start_block", startBlock), ("end_block", endBlock)]⟩,
       .ret, .cancel] := rfl
  refine ⟨h, ?_, ?_, ?_⟩
  · rw [h]; simp
  · rw [h]; simp
  · intro entry hmem
    rw [h] at hmem
    simp only [List.mem_cons, Action.log.injEq, List.mem_singleton, List.not_mem_nil,
      or_false] at hmem
    rcases hmem with rfl | rfl | h3 | h4
    · simp [logStarted]
    · simp
    · cases h3
    · cases h4

/-! ## The controller on its own: the sub-ranges fetched -/

theorem drive_completed (fetch : Fetcher) (e b c : Nat) (fuel : Nat) :
    Controller.drive fetch e b fuel ⟨c, .completed⟩ = [] := by
  cases fuel <;> simp [Controller.drive, Controller.advance]

theorem drive_running_done (fetch : Fetcher) (e b c : Nat) (fuel : Nat) (h : ¬ c < e) :
    Controller.drive fetch e b (fuel + 1) ⟨c, .running⟩ = [.done] := by
  simp [Controller.drive, Controller.advance, h, drive_completed]

theorem drive_running_fetch (fetch : Fetcher) (e b c : Nat) (fuel : Nat) (r : BatchResponse)
    (h : c < e) (hr : fetch c (min (c + b) e) = .ok r) :
    Controller.drive fetch e b (fuel + 3) ⟨c, .running⟩ =
      [.fetch c (min (c + b) e), .data r] ++
        Controller.drive fetch e b fuel ⟨r.nextBlock, .running⟩ := by
  simp [Controller.drive, Controller.advance, h, hr]

/-- The signals of a fetch that reached the upper bound of its sub-range. -/
theorem fetchesOf_shape (L : List ((Nat × Nat) × List LogRecord)) (tail : List Signal) :
    fetchesOf (L.flatMap (fun q => [Signal.fetch q.1.1 q.1.2, Signal.data ⟨q.1.2, q.2⟩]) ++ tail) =
      L.map Prod.fst ++ fetchesOf tail := by
  induction L with
  | nil => simp
  | cons q rest ih =>
    have h : (q :: rest).flatMap
          (fun q => [Signal.fetch q.1.1 q.1.2, Signal.data ⟨q.1.2, q.2⟩]) ++ tail =
        Signal.fetch q.1.1 q.1.2 :: Signal.data ⟨q.1.2, q.2⟩ ::
          (rest.flatMap (fun q => [Signal.fetch q.1.1 q.1.2, Signal.data ⟨q.1.2, q.2⟩]) ++
            tail) := by
      simp [List.flatMap_cons]
    rw [h]
    show (q.1.1, q.1.2) :: fetchesOf (rest.flatMap
      (fun q => [Signal.fetch q.1.1 q.1.2, Signal.data ⟨q.1.2, q.2⟩]) ++ tail) = _
    rw [ih]
    rfl

theorem deliveredOf_shape (L : List ((Nat × Nat) × List LogRecord)) (tail : List Signal) :
    deliveredOf (L.flatMap (fun q => [Signal.fetch q.1.1 q.1.2, Signal.data ⟨q.1.2, q.2⟩]) ++
        tail) =
      L.map (fun q => (⟨q.1.2, q.2⟩ : BatchResponse)) ++ deliveredOf tail := by
  induction L with
  | nil => simp
  | cons q rest ih =>
    have h : (q :: rest).flatMap
          (fun q => [Signal.fetch q.1.1 q.1.2, Signal.data ⟨q.1.2, q.2⟩]) ++ tail =
        Signal.fetch q.1.1 q.1.2 :: Signal.data ⟨q.1.2, q.2⟩ ::
          (rest.flatMap (fun q => [Signal.fetch q.1.1 q.1.2, Signal.data ⟨q.1.2, q.2⟩]) ++
            tail) := by
      simp [List.flatMap_cons]
    rw [h]
    show (⟨q.1.2, q.2⟩ : BatchResponse) :: deliveredOf (rest.flatMap
      (fun q => [Signal.fetch q.1.1 q.1.2, Signal.data ⟨q.1.2, q.2⟩]) ++ tail) = _
    rw [ih]
    rfl

/-- With a fetcher that succeeds and reaches the upper bound of every sub-range,
enough fuel lets the controller fetch the tiles from the cursor to the end and
then signal completion. -/
theorem drive_tiles (fetch : Fetcher) (s e b : Nat) (hb : 0 < b)
    (hf : ∀ lo hi, s ≤ lo → lo < hi → hi ≤ e → ∃ logs, fetch lo hi = .ok ⟨hi, logs⟩) :
    ∀ (n c fuel : Nat), e - c ≤ n → c ≤ e → s ≤ c → 3 * n + 1 ≤ fuel →
      ∃ L : List ((Nat × Nat) × List LogRecord),
        Controller.drive fetch e b fuel ⟨c, .running⟩ =
          L.flatMap (fun q => [Signal.fetch q.1.1 q.1.2, Signal.data ⟨q.1.2, q.2⟩]) ++
            [Signal.done] ∧
        Tiles e b c (L.map Prod.fst) := by
  intro n
  induction n with
  | zero =>
    intro c fuel hn hce _ hfuel
    have hc : c = e := by omega
    obtain ⟨f, rfl⟩ : ∃ f, fuel = f + 1 := ⟨fuel - 1, by omega⟩
    refine ⟨[], ?_, ?_⟩
    · rw [drive_running_done fetch e b c f (by omega)]; rfl
    · simpa [Tiles] using hc
  | succ n ih =>
    intro c fuel hn hce hsc hfuel
    by_cases hlt : c < e
    · have hhi1 : c < min (c + b) e := by
        rw [Nat.lt_min]; exact ⟨by omega, hlt⟩
      have hhi2 : min (c + b) e ≤ e := Nat.min_le_right _ _
      obtain ⟨logs, hlogs⟩ := hf c (min (c + b) e) hsc hhi1 hhi2
      obtain ⟨f, rfl⟩ : ∃ f, fuel = f + 3 := ⟨fuel - 3, by omega⟩
      obtain ⟨L, hL, hT⟩ := ih (min (c + b) e) f (by omega) hhi2 (by omega) (by omega)
      refine ⟨((c, min (c + b) e), logs) :: L, ?_, ?_⟩
      · rw [drive_running_fetch fetch e b c f _ hlt hlogs]
        simp only []
        rw [hL]
        simp [List.flatMap_cons]
      · show Tiles e b c ((c, min (c + b) e) :: L.map Prod.fst)
        exact ⟨hlt, rfl, hT⟩
    · have hc : c = e := by omega
      obtain ⟨f, rfl⟩ : ∃ f, fuel = f + 1 := ⟨fuel - 1, by omega⟩
      refine ⟨[], ?_, ?_⟩
      · rw [drive_running_done fetch e b c f hlt]; rfl
      · simpa [Tiles] using hc

theorem tiles_bounds (e b : Nat) (hb : 0 < b) :
    ∀ (F : List (Nat × Nat)) (c : Nat), Tiles e b c F →
      ∀ p ∈ F, p.2 = min (p.1 + b) e ∧ p.1 < p.2 ∧ c ≤ p.1 ∧ p.2 ≤ e := by
  intro F
  induction F with
  | nil => intro c _ p hp; simp at hp
  | cons q rest ih =>
    intro c hT p hp
    obtain ⟨hlt, hq, hrest⟩ := hT
    have hhi1 : c < min (c + b) e := by
      rw [Nat.lt_min]; exact ⟨by omega, hlt⟩
    rcases List.mem_cons.mp hp with rfl | hin
    · subst hq
      exact ⟨rfl, hhi1, Nat.le_refl _, Nat.min_le_right _ _⟩
    · obtain ⟨h1, h2, h3, h4⟩ := ih _ hrest p hin
      exact ⟨h1, h2, by omega, h4⟩

theorem tiles_head (e b : Nat) (F : List (Nat × Nat)) (c : Nat) (hT : Tiles e b c F) :
    F.head? = if c < e then some (c, min (c + b) e) else none := by
  cases F with
  | nil =>
    have : c = e := hT
    simp [this]
  | cons q rest =>
    obtain ⟨hlt, hq, _⟩ := hT
    simp [hlt, hq]

theorem tiles_chain (e b : Nat) :
    ∀ (F : List (Nat × Nat)) (c : Nat), Tiles e b c F →
      F.Chain' (fun p q => q.1 = p.2) := by
  intro F
  induction F with
  | nil => intro c _; exact List.chain'_nil
  | cons q rest ih =>
    intro c hT
    obtain ⟨_, hq, hrest⟩ := hT
    cases rest with
    | nil => exact List.chain'_singleton _
    | cons q2 rest2 =>
      rw [List.chain'_cons]
      refine ⟨?_, ih _ hrest⟩
      obtain ⟨_, hq2, _⟩ := hrest
      rw [hq2, hq]

theorem tiles_last (e b : Nat) :
    ∀ (F : List (Nat × Nat)) (c : Nat), Tiles e b c F → c < e →
      (F.map Prod.snd).getLast? = some e := by
  intro F
  induction F with
  | nil =>
    intro c hT hlt
    have : c = e := hT
    omega
  | cons q rest ih =>
    intro c hT _
    obtain ⟨_, hq, hrest⟩ := hT
    cases rest with
    | nil =>
      have h2 : min (c + b) e = e := hrest
      simp [hq, h2]
    | cons q2 rest2 =>
      have hlt2 : min (c + b) e < e := hrest.1
      have := ih _ hrest hlt2
      simpa [List.getLast?_cons_cons] using this

theorem coverage_cons (p : Nat × Nat) (F : List (Nat × Nat)) (x : Nat) :
    coverage (p :: F) x = (if p.1 ≤ x ∧ x < p.2 then 1 else 0) + coverage F x := by
  unfold coverage
  rw [List.filter_cons]
  by_cases h : p.1 ≤ x ∧ x < p.2
  · simp [h]; omega
  · simp [h]

theorem tiles_coverage (e b : Nat) (hb : 0 < b) :
    ∀ (F : List (Nat × Nat)) (c : Nat), Tiles e b c F → c ≤ e →
      ∀ x, coverage F x = if c ≤ x ∧ x < e then 1 else 0 := by
  intro F
  induction F with
  | nil =>
    intro c hT _ x
    have hc : c = e := hT
    have : ¬ (c ≤ x ∧ x < e) := by omega
    simp [coverage, this]
  | cons q rest ih =>
    intro c hT hce x
    obtain ⟨hlt, hq, hrest⟩ := hT
    have hhi1 : c < min (c + b) e := by
      rw [Nat.lt_min]; exact ⟨by omega, hlt⟩
    have hhi2 : min (c + b) e ≤ e := Nat.min_le_right _ _
    rw [coverage_cons, ih _ hrest hhi2 x, hq]
    simp only []
    split_ifs <;> omega

theorem tiles_100_350 (F : List (Nat × Nat)) (hT : Tiles 350 100 100 F) :
    F = [(100, 200), (200, 300), (300, 350)] := by
  cases F with
  | nil => exact absurd (show (100 : Nat) = 350 from hT) (by decide)
  | cons p1 F1 =>
    obtain ⟨_, h1, hT1⟩ := hT
    subst h1
    cases F1 with
    | nil => exact absurd (show min (100 + 100) 350 = 350 from hT1) (by decide)
    | cons p2 F2 =>
      obtain ⟨_, h2, hT2⟩ := hT1
      subst h2
      cases F2 with
      | nil =>
        exact absurd (show min (min (100 + 100) 350 + 100) 350 = 350 from hT2) (by decide)
      | cons p3 F3 =>
        obtain ⟨_, h3, hT3⟩ := hT2
        subst h3
        cases F3 with
        | nil => rfl
        | cons p4 F4 =>
          exact absurd
            (show min (min (min (100 + 100) 350 + 100) 350 + 100) 350 < 350 from hT3.1)
            (by decide)

theorem startStream_ok (s e b : Nat) (hse : s ≤ e) (hb : 0 < b) :
    startStream s e b = .ok ⟨s, .running⟩ := by
  unfold startStream
  rw [if_neg (by omega), if_neg (by omega)]

theorem done_not_mem_shape (L : List ((Nat × Nat) × List LogRecord)) :
    Signal.done ∉ L.flatMap (fun q => [Signal.fetch q.1.1 q.1.2, Signal.data ⟨q.1.2, q.2⟩]) := by
  simp [List.mem_flatMap]

theorem error_not_mem_shape (L : List ((Nat × Nat) × List LogRecord)) (err : Err) :
    Signal.error err ∉
      L.flatMap (fun q => [Signal.fetch q.1.1 q.1.2, Signal.data ⟨q.1.2, q.2⟩]) ++
        [Signal.done] := by
  simp [List.mem_flatMap]

/-- C4, as stated, fails for a fetcher that always succeeds but whose responses
reach only 50 blocks past the start of the sub-range: on [100, 300) with batch
size 100 the controller completes, the last `nextBlock` is 300, but it fetches
[100,200), [150,250), [200,300), [250,300), so that block 150 lies in two
fetched sub-ranges. -/
theorem short_responses_make_fetches_overlap :
    (∀ lo hi, ∃ r, shortFetch lo hi = .ok r)
    ∧ startStream 100 300 100 = .ok ⟨100, .running⟩
    ∧ fetchesOf (Controller.drive shortFetch 300 100 20 ⟨100, .running⟩) =
        [(100, 200), (150, 250), (200, 300), (250, 300)]
    ∧ (Controller.drive shortFetch 300 100 20 ⟨100, .running⟩).getLast? = some Signal.done
    ∧ ((deliveredOf (Controller.drive shortFetch 300 100 20 ⟨100, .running⟩)).map
        (fun r => r.nextBlock)).getLast? = some 300
    ∧ ¬ (coverage (fetchesOf (Controller.drive shortFetch 300 100 20 ⟨100, .running⟩)) 150 = 1) := by
  refine ⟨fun lo _ => ⟨⟨lo + 50, []⟩, rfl⟩, startStream_ok 100 300 100 (by decide) (by decide),
    ?_, ?_, ?_, ?_⟩ <;> decide

/-- C4, as amended: for `s ≤ e` and `b > 0`, when every fetch succeeds with a
response whose `nextBlock` is the upper bound of the fetched sub-range and every
batch is acknowledged, `startStream` succeeds and, given enough fuel, the
controller ends with the completion signal, once and without error; the fetched
sub-ranges start at `s`, each is `[cursor, min(cursor+b, e))` and non-empty,
each starts where the one before ended, and every block of `[s, e)` lies in
exactly one of them and no other block in any; the `nextBlock` values delivered
are the upper bounds of the fetched sub-ranges, the last one being `e`; for
`s = e` the only signal is completion; and [100, 350) with `b = 100` gives the
fetches [100,200), [200,300), [300,350). -/
theorem controller_fetches_tile_the_range (fetch : Fetcher) (s e b fuel : Nat)
    (hse : s ≤ e) (hb : 0 < b)
    (hf : ∀ lo hi, s ≤ lo → lo < hi → hi ≤ e → ∃ logs, fetch lo hi = .ok ⟨hi, logs⟩)
    (hfuel : 3 * (e - s) + 1 ≤ fuel) :
    startStream s e b = .ok ⟨s, .running⟩
    ∧ (Controller.drive fetch e b fuel ⟨s, .running⟩).getLast? = some Signal.done
    ∧ (Controller.drive fetch e b fuel ⟨s, .running⟩).count Signal.done = 1
    ∧ (∀ err, Signal.error err ∉ Controller.drive fetch e b fuel ⟨s, .running⟩)
    ∧ (fetchesOf (Controller.drive fetch e b fuel ⟨s, .running⟩)).head? =
        (if s < e then some (s, min (s + b) e) else none)
    ∧ (∀ p ∈ fetchesOf (Controller.drive fetch e b fuel ⟨s, .running⟩),
        p.2 = min (p.1 + b) e ∧ p.1 < p.2)
    ∧ (fetchesOf (Controller.drive fetch e b fuel ⟨s, .running⟩)).Chain'
        (fun p q => q.1 = p.2)
    ∧ (∀ x, coverage (fetchesOf (Controller.drive fetch e b fuel ⟨s, .running⟩)) x =
        if s ≤ x ∧ x < e then 1 else 0)
    ∧ (deliveredOf (Controller.drive fetch e b fuel ⟨s, .running⟩)).map (fun r => r.nextBlock) =
        (fetchesOf (Controller.drive fetch e b fuel ⟨s, .running⟩)).map Prod.snd
    ∧ (s < e →
        ((deliveredOf (Controller.drive fetch e b fuel ⟨s, .running⟩)).map
          (fun r => r.nextBlock)).getLast? = some e)
    ∧ (s = e → Controller.drive fetch e b fuel ⟨s, .running⟩ = [Signal.done])
    ∧ (s = 100 → e = 350 → b = 100 →
        fetchesOf (Controller.drive fetch e b fuel ⟨s, .running⟩) =
          [(100, 200), (200, 300), (300, 350)]) := by
  obtain ⟨L, hL, hT⟩ := drive_tiles fetch s e b hb hf (e - s) s fuel (Nat.le_refl _) hse
    (Nat.le_refl _) hfuel
  have hF : fetchesOf (Controller.drive fetch e b fuel ⟨s, .running⟩) = L.map Prod.fst := by
    rw [hL, fetchesOf_shape]; simp [fetchesOf]
  have hD : deliveredOf (Controller.drive fetch e b fuel ⟨s, .running⟩) =
      L.map (fun q => (⟨q.1.2, q.2⟩ : BatchResponse)) := by
    rw [hL, deliveredOf_shape]; simp [deliveredOf]
  have hDF : (deliveredOf (Controller.drive fetch e b fuel ⟨s, .running⟩)).map
      (fun r => r.nextBlock) =
      (fetchesOf (Controller.drive fetch e b fuel ⟨s, .running⟩)).map Prod.snd := by
    rw [hD, hF]; simp [List.map_map, Function.comp_def]
  refine ⟨startStream_ok s e b hse hb, ?_, ?_, ?_, ?_, ?_, ?_, ?_, hDF, ?_, ?_, ?_⟩
  · rw [hL, List.getLast?_append]; simp
  · rw [hL, List.count_append, List.count_eq_zero_of_not_mem (done_not_mem_shape L)]
    simp
  · intro err
    rw [hL]
    exact error_not_mem_shape L err
  · rw [hF]; exact tiles_head e b _ s hT
  · rw [hF]
    intro p hp
    obtain ⟨h1, h2, _, _⟩ := tiles_bounds e b hb _ s hT p hp
    exact ⟨h1, h2⟩
  · rw [hF]; exact tiles_chain e b _ s hT
  · rw [hF]; exact tiles_coverage e b hb _ s hT hse
  · intro hlt
    rw [hDF, hF]
    exact tiles_last e b _ s hT hlt
  · intro heq
    cases hLc : L with
    | nil => rw [hL, hLc]; rfl
    | cons q rest =>
      rw [hLc] at hT
      have : s < e := hT.1
      omega
  · intro h1 h2 h3
    subst h1 h2 h3
    rw [hF]
    exact tiles_100_350 _ hT

/-- C4 as amended, at the range [100, 350) with batch size 100 and a fetcher
that finds no logs. -/
theorem controller_fetches_tile_the_range_witness :
    100 ≤ 350 ∧ 0 < 100
    ∧ (∀ lo hi, 100 ≤ lo → lo < hi → hi ≤ 350 → ∃ logs, emptyFetch lo hi = .ok ⟨hi, logs⟩)
    ∧ 3 * (350 - 100) + 1 ≤ 751
    ∧ fetchesOf (Controller.drive emptyFetch 350 100 751 ⟨100, .running⟩) =
        [(100, 200), (200, 300), (300, 350)] :=
  ⟨by decide, by decide, fun _ _ _ _ _ => ⟨[], rfl⟩, by decide,
   (controller_fetches_tile_the_range emptyFetch 100 350 100 751 (by decide) (by decide)
      (fun _ _ _ _ _ => ⟨[], rfl⟩) (by decide)).2.2.2.2.2.2.2.2.2.2.2 rfl rfl rfl⟩

/-! ## Acknowledgment-gated flow control -/

theorem inv_init (c : Nat) : Inv (System.init ⟨c, .running⟩) := by
  simp [Inv, System.init, PhaseOk, System.fetches, System.delivered, System.acks]

theorem inv_produce (fetch : Fetcher) (e b : Nat) (sys : System) (h : Inv sys) :
    Inv (sys.produce fetch e b) := by
  obtain ⟨⟨cursor, phase⟩, dataCh, errCh, doneCh, gate, totals, pending, stopped, hist⟩ := sys
  obtain ⟨h1, h2, h3, h4⟩ := h
  simp only [System.delivered, System.acks, System.fetches] at h1 h2 h3 h4
  cases phase with
  | running =>
    simp only [PhaseOk] at h4
    by_cases hc : cursor < e
    · simp only [System.produce, Controller.advance, hc, if_true]
      refine ⟨h1, h2, ?_, ?_⟩
      · simpa [System.delivered, System.acks, List.countP_append, Obs.isData, Obs.isAck]
          using h3
      · simp only [PhaseOk, System.fetches, System.delivered, List.countP_append,
          List.countP_cons, List.countP_nil, Obs.isFetch, Obs.isData]
        simp [-List.length_eq_zero]
        omega
    · simp only [System.produce, Controller.advance, hc, if_false]
      refine ⟨h1, h2, ?_, ?_⟩
      · simpa [System.delivered, System.acks, List.countP_append, Obs.isData, Obs.isAck]
          using h3
      · simp only [PhaseOk, System.fetches, System.delivered, List.countP_append,
          List.countP_cons, List.countP_nil, Obs.isFetch, Obs.isData]
        simp [-List.length_eq_zero]
        omega
  | fetching lo hi =>
    simp only [PhaseOk] at h4
    cases hr : fetch lo hi with
    | ok r =>
      simp only [System.produce, Controller.advance, hr]
      refine ⟨h1, h2, ?_, ?_⟩
      · simp only [System.delivered, System.acks, List.countP_append, List.countP_cons,
          List.countP_nil, Obs.isData, Obs.isAck, List.length_append, List.length_cons,
          List.length_nil]
        simp [-List.length_eq_zero]
        omega
      · simp only [PhaseOk, System.fetches, System.delivered, List.countP_append,
          List.countP_cons, List.countP_nil, Obs.isFetch, Obs.isData, List.length_append,
          List.length_cons, List.length_nil]
        simp [-List.length_eq_zero]
        omega
    | error err =>
      simp only [System.produce, Controller.advance, hr]
      refine ⟨h1, h2, ?_, ?_⟩
      · simpa [System.delivered, System.acks, List.countP_append, Obs.isData, Obs.isAck]
          using h3
      · simp only [PhaseOk, System.fetches, System.delivered, List.countP_append,
          List.countP_cons, List.countP_nil, Obs.isFetch, Obs.isData]
        simp [-List.length_eq_zero]
        omega
  | awaitingAck r =>
    simp only [PhaseOk] at h4
    by_cases hg : 0 < gate
    · simp only [System.produce, Controller.advance, hg, decide_True, if_true]
      refine ⟨h1, h2, h3, ?_⟩
      simp only [PhaseOk, System.fetches, System.delivered]
      omega
    · simp only [System.produce, Controller.advance, hg, decide_False, Bool.false_eq_true,
        if_false]
      exact ⟨h1, h2, h3, h4⟩
  | completed =>
    simp only [System.produce, Controller.advance]
    exact ⟨h1, h2, h3, h4⟩
  | failed =>
    simp only [System.produce, Controller.advance]
    exact ⟨h1, h2, h3, h4⟩
  | cancelled =>
    simp only [System.produce, Controller.advance]
    exact ⟨h1, h2, h3, h4⟩

theorem isAck_consumer (a : Action) : Obs.isAck (.consumer a) = decide (a = Action.ack) := by
  cases a <;> simp [Obs.isAck]

theorem isFetch_consumer (a : Action) : Obs.isFetch (.consumer a) = false := rfl

theorem isData_consumer (a : Action) : Obs.isData (.consumer a) = false := rfl

theorem counts_execute (sys : System) (a : Action) (rest : List Action) :
    (sys.execute a rest).fetches = sys.fetches
    ∧ (sys.execute a rest).delivered = sys.delivered
    ∧ (sys.execute a rest).acks = sys.acks + (if a = Action.ack then 1 else 0)
    ∧ (sys.execute a rest).dataCh = sys.dataCh
    ∧ (sys.execute a rest).pending = rest
    ∧ (sys.execute a rest).stopped = sys.stopped
    ∧ (sys.execute a rest).gate = sys.gate + (if a = Action.ack then 1 else 0)
    ∧ (sys.execute a rest).ctl.phase =
        (if a = Action.cancel then Phase.cancelled else sys.ctl.phase) := by
  refine ⟨?_, ?_, ?_, rfl, rfl, rfl, ?_, ?_⟩
  · simp [System.execute, System.fetches, List.countP_append, isFetch_consumer]
  · simp [System.execute, System.delivered, List.countP_append, isData_consumer]
  · by_cases h : a = Action.ack <;>
      simp [System.execute, System.acks, List.countP_append, isAck_consumer, h]
  · by_cases h : a = Action.ack <;> simp [System.execute, h]
  · by_cases h : a = Action.cancel <;> simp [System.execute, h]

theorem inv_execute (sys : System) (a : Action) (rest : List Action)
    (hp : sys.pending = a :: rest) (h : Inv sys) : Inv (sys.execute a rest) := by
  obtain ⟨c1, c2, c3, c4, c5, c6, c7, c8⟩ := counts_execute sys a rest
  obtain ⟨h1, h2, h3, h4⟩ := h
  unfold Inv
  rw [c1, c2, c3, c4, c5, c6, c7, c8]
  rw [hp] at h1 h2 h3 h4
  by_cases hack : a = Action.ack
  · subst hack
    have hcount : (Action.ack :: rest).count Action.ack = rest.count Action.ack + 1 := by
      simp
    rw [hcount] at h2 h3 h4
    have hs : sys.stopped = false := by
      cases hst : sys.stopped with
      | false => rfl
      | true => have := h2 hst; omega
    have hph : ∃ r, sys.ctl.phase = Phase.awaitingAck r := by
      cases hphase : sys.ctl.phase with
      | awaitingAck r => exact ⟨r, rfl⟩
      | cancelled =>
        rw [hphase] at h4
        have := h4.1
        rw [hs] at this
        cases this
      | running => rw [hphase] at h4; have := h4.2.2.1; omega
      | fetching lo hi => rw [hphase] at h4; have := h4.2.2.1; omega
      | completed => rw [hphase] at h4; have := h4.2.2.1; omega
      | failed => rw [hphase] at h4; have := h4.2.2.1; omega
    obtain ⟨r, hr⟩ := hph
    rw [hr] at h4 ⊢
    have hne : ¬ (Action.ack = Action.cancel) := by decide
    simp only [if_true, if_neg hne]
    refine ⟨?_, ?_, ?_, ?_⟩
    · intro hc
      exact h1 (List.mem_cons_of_mem _ hc)
    · intro hst
      rw [hs] at hst
      cases hst
    · omega
    · obtain ⟨h5, h6⟩ := h4
      exact ⟨h5, by omega⟩
  · have hcount : (a :: rest).count Action.ack = rest.count Action.ack := by
      rw [List.count_cons]
      have : (a == Action.ack) = false := by simpa using hack
      simp [this]
    rw [hcount] at h2 h3 h4
    simp only [if_neg hack, Nat.add_zero]
    by_cases hcan : a = Action.cancel
    · subst hcan
      have hst : sys.stopped = true := h1 (List.mem_cons_self _ _)
      have hz := h2 hst
      simp only [if_true]
      refine ⟨fun _ => hst, h2, h3, ?_⟩
      cases hphase : sys.ctl.phase with
      | running =>
        rw [hphase] at h4
        obtain ⟨h5, h6, _, _⟩ := h4
        exact ⟨hst, by omega, by omega⟩
      | fetching lo hi =>
        rw [hphase] at h4
        obtain ⟨h5, h6, _, _⟩ := h4
        exact ⟨hst, by omega, by omega⟩
      | awaitingAck r =>
        rw [hphase] at h4
        obtain ⟨h5, h6⟩ := h4
        exact ⟨hst, by omega, by omega⟩
      | completed =>
        rw [hphase] at h4
        obtain ⟨h5, h6, _, _⟩ := h4
        exact ⟨hst, by omega, by omega⟩
      | failed =>
        rw [hphase] at h4
        obtain ⟨h5, h6, _, _⟩ := h4
        exact ⟨hst, by omega, by omega⟩
      | cancelled =>
        rw [hphase] at h4
        exact h4
    · simp only [if_neg hcan]
      exact ⟨fun hc => h1 (List.mem_cons_of_mem _ hc), h2, h3, h4⟩

theorem cancel_not_mem_dataBranch (r : BatchResponse) : Action.cancel ∉ dataBranch r := by
  simp [dataBranch, accumulate]

theorem count_ack_dataBranch (r : BatchResponse) : (dataBranch r).count Action.ack = 1 := by
  have h := ack_not_mem_accumulate r
  simp [dataBranch, List.count_cons, List.count_append, List.count_eq_zero_of_not_mem h]

theorem count_ack_terminal (st : Totals) (ev : Event) (hev : ev.isData = false) :
    (branch st ev ++ [Action.ret, Action.cancel]).count Action.ack = 0 := by
  have h := ack_not_mem_branch st ev hev
  simp [List.count_append, List.count_eq_zero_of_not_mem h, List.count_cons]

/-- Selecting a case that returns keeps the invariant. -/
theorem inv_select_terminal (sys : System) (ev : Event) (hev : ev.isData = false)
    (hp : sys.pending = []) (h : Inv sys) (errCh : List Err) :
    Inv { sys with
      errCh := errCh
      pending := if (step sys.totals ev).continues then (step sys.totals ev).actions
        else (step sys.totals ev).actions ++ [.ret, .cancel]
      stopped := !(step sys.totals ev).continues } := by
  obtain ⟨h1, h2, h3, h4⟩ := h
  have hz := count_ack_terminal sys.totals ev hev
  rw [hp] at h3 h4
  simp only [List.count_nil] at h3 h4
  unfold Inv
  simp only [System.delivered, System.acks, System.fetches] at h3 h4
  simp only [step, hev, Bool.false_eq_true, if_false, Bool.not_false, System.delivered,
    System.acks, System.fetches]
  rw [hz]
  refine ⟨fun _ => trivial, fun _ => rfl, h3, ?_⟩
  cases hphase : sys.ctl.phase with
  | cancelled =>
    rw [hphase] at h4
    exact ⟨rfl, h4.2⟩
  | running => rw [hphase] at h4; exact h4
  | fetching lo hi => rw [hphase] at h4; exact h4
  | awaitingAck r => rw [hphase] at h4; exact h4
  | completed => rw [hphase] at h4; exact h4
  | failed => rw [hphase] at h4; exact h4

/-- Receiving a response from the data channel keeps the invariant. -/
theorem inv_select_data (sys : System) (r : BatchResponse) (rest : List BatchResponse)
    (hp : sys.pending = []) (hs : sys.stopped = false) (hd : sys.dataCh = r :: rest)
    (h : Inv sys) :
    Inv { sys with
      dataCh := rest
      pending := if (step sys.totals (.data r)).continues
        then (step sys.totals (.data r)).actions
        else (step sys.totals (.data r)).actions ++ [.ret, .cancel]
      stopped := !(step sys.totals (.data r)).continues } := by
  obtain ⟨h1, h2, h3, h4⟩ := h
  rw [hp, hd] at h3 h4
  simp only [List.count_nil, List.length_cons, System.delivered, System.acks,
    System.fetches] at h3 h4
  unfold Inv
  simp only [step, Event.isData, if_true, Bool.not_true, branch, System.delivered,
    System.acks, System.fetches]
  rw [count_ack_dataBranch]
  refine ⟨fun hc => absurd hc (cancel_not_mem_dataBranch r), fun hf => (by cases hf),
    (by omega), ?_⟩
  cases hphase : sys.ctl.phase with
  | awaitingAck r2 =>
    rw [hphase] at h4
    obtain ⟨h5, h6⟩ := h4
    exact ⟨h5, by omega⟩
  | cancelled =>
    rw [hphase] at h4
    have := h4.1
    rw [hs] at this
    cases this
  | running => rw [hphase] at h4; have := h4.2.1; omega
  | fetching lo hi => rw [hphase] at h4; have := h4.2.1; omega
  | completed => rw [hphase] at h4; have := h4.2.1; omega
  | failed => rw [hphase] at h4; have := h4.2.1; omega

theorem inv_consume (sys : System) (c : Choice) (h : Inv sys) : Inv (sys.consume c) := by
  unfold System.consume
  cases hp : sys.pending with
  | cons a rest => exact inv_execute sys a rest hp h
  | nil =>
    simp only []
    cases hs : sys.stopped with
    | true => simpa using h
    | false =>
      simp only [Bool.false_eq_true, if_false]
      cases c with
      | data =>
        cases hd : sys.dataCh with
        | nil => simpa [System.select, hd] using h
        | cons r rest =>
          simp only [System.select, hd]
          exact inv_select_data sys r rest hp hs hd h
      | err =>
        cases he : sys.errCh with
        | nil => simpa [System.select, he] using h
        | cons x rest =>
          simp only [System.select, he]
          exact inv_select_terminal sys (.err x) rfl hp h rest
      | done =>
        cases hdone : sys.doneCh with
        | false => simpa [System.select, hdone] using h
        | true =>
          simp only [System.select, hdone, if_true]
          have := inv_select_terminal sys .done rfl hp h sys.errCh
          simpa using this
      | timeout =>
        simp only [System.select]
        have := inv_select_terminal sys .timeout rfl hp h sys.errCh
        simpa using this

theorem inv_move (fetch : Fetcher) (e b : Nat) (sys : System) (m : Move) (h : Inv sys) :
    Inv (sys.move fetch e b m) := by
  cases m with
  | producer => exact inv_produce fetch e b sys h
  | consumer c => exact inv_consume sys c h

theorem inv_runMoves (fetch : Fetcher) (e b : Nat) (ms : List Move) (sys : System)
    (h : Inv sys) : Inv (sys.runMoves fetch e b ms) := by
  induction ms generalizing sys with
  | nil => exact h
  | cons m rest ih => exact ih _ (inv_move fetch e b sys m h)

/-- What the invariant says about the three counts. -/
theorem inv_counts (sys : System) (h : Inv sys) :
    sys.acks ≤ sys.delivered ∧ sys.delivered ≤ sys.fetches ∧ sys.fetches ≤ sys.acks + 1 := by
  obtain ⟨_, h2, h3, h4⟩ := h
  cases hphase : sys.ctl.phase with
  | running => rw [hphase] at h4; obtain ⟨h5, h6, h7, h8⟩ := h4; omega
  | fetching lo hi => rw [hphase] at h4; obtain ⟨h5, h6, h7, h8⟩ := h4; omega
  | awaitingAck r => rw [hphase] at h4; obtain ⟨h5, h6⟩ := h4; omega
  | completed => rw [hphase] at h4; obtain ⟨h5, h6, h7, h8⟩ := h4; omega
  | failed => rw [hphase] at h4; obtain ⟨h5, h6, h7, h8⟩ := h4; omega
  | cancelled =>
    rw [hphase] at h4
    obtain ⟨h5, h6, h7⟩ := h4
    have := h2 h5
    omega

/-- A move that calls the fetcher starts from the loop head of the controller. -/
theorem fetch_from_running (fetch : Fetcher) (e b : Nat) (sys : System) (m : Move)
    (lo hi : Nat) (h : (sys.move fetch e b m).hist = sys.hist ++ [Obs.ctl (.fetch lo hi)]) :
    sys.ctl.phase = Phase.running := by
  cases m with
  | consumer c =>
    exfalso
    simp only [System.move, System.consume] at h
    cases hp : sys.pending with
    | cons a rest =>
      rw [hp] at h
      simp [System.execute] at h
    | nil =>
      rw [hp] at h
      simp only [] at h
      cases hs : sys.stopped with
      | true => rw [hs] at h; simp at h
      | false =>
        rw [hs] at h
        simp only [Bool.false_eq_true, if_false] at h
        cases c with
        | data =>
          cases hd : sys.dataCh with
          | nil => simp [System.select, hd] at h
          | cons r rest => simp [System.select, hd] at h
        | err =>
          cases he : sys.errCh with
          | nil => simp [System.select, he] at h
          | cons x rest => simp [System.select, he] at h
        | done =>
          cases hdone : sys.doneCh with
          | false => simp [System.select, hdone] at h
          | true => simp [System.select, hdone] at h
        | timeout => simp [System.select] at h
  | producer =>
    simp only [System.move, System.produce] at h
    cases hphase : sys.ctl.phase with
    | running => rfl
    | fetching lo2 hi2 =>
      exfalso
      cases hr : fetch lo2 hi2 with
      | ok r => simp [Controller.advance, hphase, hr] at h
      | error err => simp [Controller.advance, hphase, hr] at h
    | awaitingAck r =>
      exfalso
      by_cases hg : 0 < sys.gate
      · simp [Controller.advance, hphase, hg] at h
      · simp [Controller.advance, hphase, hg] at h
    | completed => exfalso; simp [Controller.advance, hphase] at h
    | failed => exfalso; simp [Controller.advance, hphase] at h
    | cancelled => exfalso; simp [Controller.advance, hphase] at h

/-- C5: in every run of the controller started by `startStream` together with
the consumer loop of `main`, under every schedule, `Ack()` calls never exceed
the responses delivered, these never exceed the fetches issued, and the fetches
never exceed the `Ack()` calls by more than one, so that at most one delivered
batch is unacknowledged; and whenever the next move issues a fetch, `Ack()` has
been called once for every earlier fetch. -/
theorem fetch_waits_for_ack (fetch : Fetcher) (s e b : Nat) (c0 : Controller)
    (ms : List Move) (hstart : startStream s e b = .ok c0) :
    ((System.init c0).runMoves fetch e b ms).acks ≤
        ((System.init c0).runMoves fetch e b ms).delivered
    ∧ ((System.init c0).runMoves fetch e b ms).delivered ≤
        ((System.init c0).runMoves fetch e b ms).fetches
    ∧ ((System.init c0).runMoves fetch e b ms).fetches ≤
        ((System.init c0).runMoves fetch e b ms).acks + 1
    ∧ ((System.init c0).runMoves fetch e b ms).delivered ≤
        ((System.init c0).runMoves fetch e b ms).acks + 1
    ∧ (∀ (m : Move) (lo hi : Nat),
        (((System.init c0).runMoves fetch e b ms).move fetch e b m).hist =
          ((System.init c0).runMoves fetch e b ms).hist ++ [Obs.ctl (.fetch lo hi)] →
        ((System.init c0).runMoves fetch e b ms).acks =
          ((System.init c0).runMoves fetch e b ms).fetches) := by
  have hc0 : c0 = ⟨s, .running⟩ := by
    unfold startStream at hstart
    split at hstart
    · cases hstart
    · split at hstart
      · cases hstart
      · cases hstart; rfl
  subst hc0
  have hinv := inv_runMoves fetch e b ms _ (inv_init s)
  obtain ⟨h1, h2, h3⟩ := inv_counts _ hinv
  refine ⟨h1, h2, h3, by omega, ?_⟩
  intro m lo hi hm
  have hrun := fetch_from_running fetch e b _ m lo hi hm
  obtain ⟨_, _, h5, h6⟩ := hinv
  rw [hrun] at h6
  obtain ⟨h7, h8, h9, _⟩ := h6
  omega

/-- C5, at the range [100, 350) with batch size 100 and a schedule in which the
controller is offered a move before, during and after the processing of the
first response: two fetches, two responses, one `Ack()`. -/
theorem fetch_waits_for_ack_witness :
    startStream 100 350 100 = .ok ⟨100, .running⟩
    ∧ ((System.init ⟨100, .running⟩).runMoves emptyFetch 350 100
        [.producer, .producer, .producer, .consumer .data, .producer, .consumer .data,
         .consumer .data, .consumer .data, .consumer .data, .producer, .producer,
         .producer]).fetches ≤
      ((System.init ⟨100, .running⟩).runMoves emptyFetch 350 100
        [.producer, .producer, .producer, .consumer .data, .producer, .consumer .data,
         .consumer .data, .consumer .data, .consumer .data, .producer, .producer,
         .producer]).acks + 1
    ∧ ((System.init ⟨100, .running⟩).runMoves emptyFetch 350 100
        [.producer, .producer, .producer, .consumer .data, .producer, .consumer .data,
         .consumer .data, .consumer .data, .consumer .data, .producer, .producer,
         .producer]).fetches = 2 :=
  ⟨startStream_ok 100 350 100 (by decide) (by decide),
   (fetch_waits_for_ack emptyFetch 100 350 100 ⟨100, .running⟩
      [.producer, .producer, .producer, .consumer .data, .producer, .consumer .data,
       .consumer .data, .consumer .data, .consumer .data, .producer, .producer, .producer]
      (startStream_ok 100 350 100 (by decide) (by decide))).2.2.1,
   by decide⟩

end LogsInRange
